import Mathlib

/-!
# midbel/pack: a MessagePack-like codec

Shallow embedding of `pack.go`, `marshal.go` and `unmarshal.go`.

* Bytes are natural numbers below 256; a byte slice or a Go string is a `List Nat`.
* A `reflect.Value` handed to the encoder is a `Value` together with its addressability
  flag (`reflect.ValueOf(x)` is not addressable, the target of a pointer and the elements of
  a slice are, a struct field inherits the flag of its struct).
* A `reflect.Value` handed to the decoder is its static type `Ty` together with its current
  content, a `Value`.
* `bytes.Buffer` is the list of bytes written so far (encoder) or the list of unread bytes
  (decoder).
* A Go call ends in a normal return, in a returned `error`, or in a run-time panic: `Res`.
-/

namespace Pack

/-! ## Constants of `pack.go` -/

def Bin8 : Nat := 0xC4
def Bin16 : Nat := 0xC5
def Bin32 : Nat := 0xC6
def Nil : Nat := 0xC0
def False : Nat := 0xC2
def True : Nat := 0xC3
def Float32 : Nat := 0xCA
def Float64 : Nat := 0xCB
def UintFix : Nat := 0x00
def Uint8 : Nat := 0xCC
def Uint16 : Nat := 0xCD
def Uint32 : Nat := 0xCE
def Uint64 : Nat := 0xCF
def IntFix : Nat := 0xE0
def Int8 : Nat := 0xD0
def Int16 : Nat := 0xD1
def Int32 : Nat := 0xD2
def Int64 : Nat := 0xD3
def MapFix : Nat := 0x80
def Map16 : Nat := 0xDE
def Map32 : Nat := 0xDF
def SliceFix : Nat := 0x90
def Slice16 : Nat := 0xDC
def Slice32 : Nat := 0xDD
def StringFix : Nat := 0xA0
def String8 : Nat := 0xD9
def String16 : Nat := 0xDA
def String32 : Nat := 0xDB

def Len4 : Nat := (1 <<< 4) - 1
def Len5 : Nat := (1 <<< 5) - 1
def Len8 : Nat := (1 <<< 8) - 1
def Len16 : Nat := (1 <<< 16) - 1
def Len32 : Nat := (1 <<< 32) - 1

/-! ## Outcomes -/

/-- The `error` values the package returns: `io.EOF` from `bytes.Buffer.ReadByte`,
`InvalidTagErr`, `UnsupportedTypeErr`, `TooManyValuesErr`, `TooFewValuesErr` and the
`fmt.Errorf("string too long")` of `encode`. -/
inductive Err where
  | eof
  | InvalidTagErr (b : Nat)
  | UnsupportedTypeErr (kind : String)
  | TooManyValuesErr
  | TooFewValuesErr
  | stringTooLong
  deriving DecidableEq, Repr

/-- Run-time panics of the Go runtime and of package `reflect` that the code can reach. -/
inductive Panic where
  /-- Index out of range: `binary.BigEndian.UintN` on a slice shorter than `N/8` bytes. -/
  | indexOutOfRange
  /-- Call of `reflect.Value.Int` on a value whose kind is not a signed integer. -/
  | reflectInt
  /-- Call of `reflect.Value.SetMapIndex` on a nil map. -/
  | nilMap
  deriving DecidableEq, Repr

/-- Outcome of a Go call: normal return, returned error, or panic. -/
inductive Res (α : Type) where
  | ok (a : α)
  | fail (e : Err)
  | panic (p : Panic)
  deriving DecidableEq, Repr

/-- Applies a function to the value a call returns. -/
def Res.map {α β : Type} (f : α → β) : Res α → Res β
  | .ok a => .ok (f a)
  | .fail e => .fail e
  | .panic p => .panic p

/-! ## Values and types -/

/-- A struct field as `reflect` sees it: its name (the bytes of the Go identifier), the
string `strings.ToLower` returns for that name (for a name of ASCII letters, the name with
`A`..`Z` replaced by `a`..`z`; in general the Unicode lower-casing, which may change the
number of bytes), and whether the field is exported (`reflect` marks a value obtained through
an unexported field read-only). -/
structure Field where
  name : List Nat
  lower : List Nat
  exported : Bool
  deriving DecidableEq, Repr

/-- Static Go types, by `reflect.Kind`. `other` stands for the kinds without a wire rule
(complex numbers, arrays, channels, functions, ...) and carries `Kind.String()`. -/
inductive Ty where
  | bool | int8 | int16 | int32 | int64 | int
  | uint8 | uint16 | uint32 | uint64 | uint
  | float32 | float64 | string
  | struct (fields : List (Field × Ty))
  | map (key elem : Ty)
  | slice (elem : Ty)
  | ptr (elem : Ty)
  | iface
  | other (kind : String)

/-- Go values. Signed integers hold their mathematical value, unsigned integers a natural
number, floats their IEEE-754 bit pattern, strings their bytes. A map lists its entries in
the order `MapKeys` yields them; `none` is the nil map, nil slice, nil pointer or empty
interface. -/
inductive Value where
  | bool (b : Bool)
  | int8 (i : Int) | int16 (i : Int) | int32 (i : Int) | int64 (i : Int) | int (i : Int)
  | uint8 (u : Nat) | uint16 (u : Nat) | uint32 (u : Nat) | uint64 (u : Nat) | uint (u : Nat)
  | float32 (bits : Nat) | float64 (bits : Nat)
  | string (s : List Nat)
  | struct (fields : List (Field × Value))
  | map (entries : Option (List (Value × Value)))
  | slice (elems : Option (List Value))
  | ptr (target : Option Value)
  | iface (held : Option Value)
  | other (kind : String)

/-! ## Library functions the code calls -/

/-- Whether `lo ≤ b ≤ hi`. -/
def inRange (lo hi b : Nat) : Bool := decide (lo ≤ b) && decide (b ≤ hi)

/-- The scan behind Go's `utf8.ValidString`: `need` continuation bytes are still expected,
the next of them within `lo..hi` (the accept range the first byte of the sequence selects),
the ones after it within `0x80..0xBF`. -/
def validFrom : Nat → Nat → Nat → List Nat → Bool
  | 0, _, _, [] => true
  | _ + 1, _, _, [] => false
  | 0, _, _, b :: rest =>
    if b < 0x80 then validFrom 0 0 0 rest
    else if inRange 0xC2 0xDF b then validFrom 1 0x80 0xBF rest
    else if b = 0xE0 then validFrom 2 0xA0 0xBF rest
    else if b = 0xED then validFrom 2 0x80 0x9F rest
    else if inRange 0xE1 0xEF b then validFrom 2 0x80 0xBF rest
    else if b = 0xF0 then validFrom 3 0x90 0xBF rest
    else if b = 0xF4 then validFrom 3 0x80 0x8F rest
    else if inRange 0xF1 0xF3 b then validFrom 3 0x80 0xBF rest
    else false
  | n + 1, lo, hi, b :: rest => inRange lo hi b && validFrom n 0x80 0xBF rest

/-- Go's `utf8.ValidString` on the bytes of a string: every sequence is a well-formed
UTF-8 encoding (no overlong forms, no surrogates, nothing above U+10FFFF). -/
def validString (s : List Nat) : Bool := validFrom 0 0 0 s

/-- The bytes of an ASCII string literal. -/
def asciiBytes (s : String) : List Nat := s.toList.map Char.toNat

/-- Conversion of a Go integer to `uintN`: the value modulo `2^w` (two's complement). -/
def toUint (w : Nat) (i : Int) : Nat := (i % (2 : Int) ^ w).toNat

/-- Conversion of a Go integer to `intN`: the value wrapped into `[-2^(w-1), 2^(w-1))`. -/
def toInt (w : Nat) (i : Int) : Int := (i + (2 : Int) ^ (w - 1)) % (2 : Int) ^ w - (2 : Int) ^ (w - 1)

/-- Whether a 32-bit IEEE-754 pattern is a NaN: exponent all ones, mantissa not zero. -/
def isNaN32 (bits : Nat) : Bool := decide ((bits >>> 23) % 256 = 255) && decide (bits % 2 ^ 23 ≠ 0)

/-- Whether a 64-bit IEEE-754 pattern is a NaN. -/
def isNaN64 (bits : Nat) : Bool :=
  decide ((bits >>> 52) % 2048 = 2047) && decide (bits % 2 ^ 52 ≠ 0)

/-- The bits of a `float32` after the conversion to `float64` and back that
`reflect.Value.Float` and `reflect.Value.SetFloat` make: a signalling NaN comes back quiet
(the top bit of the mantissa set), every other pattern unchanged. -/
def quiet32 (bits : Nat) : Nat := if isNaN32 bits then bits ||| 0x00400000 else bits

/-- The argument of `binary.Write(buf, binary.BigEndian, chunk)`: `nil`, or a fixed-width
unsigned integer. -/
inductive Chunk where
  | none
  | u8 (x : Nat)
  | u16 (x : Nat)
  | u32 (x : Nat)
  | u64 (x : Nat)
  deriving DecidableEq, Repr

/-- The bytes `binary.Write` appends for a chunk, big-endian (`byte(x >> 8k)`). -/
def Chunk.bytes : Chunk → List Nat
  | .none => []
  | .u8 x => [x % 256]
  | .u16 x => [(x >>> 8) % 256, x % 256]
  | .u32 x => [(x >>> 24) % 256, (x >>> 16) % 256, (x >>> 8) % 256, x % 256]
  | .u64 x => [(x >>> 56) % 256, (x >>> 48) % 256, (x >>> 40) % 256, (x >>> 32) % 256,
               (x >>> 24) % 256, (x >>> 16) % 256, (x >>> 8) % 256, x % 256]

/-- Go's `bytes.Buffer.ReadByte`: `io.EOF` on an empty buffer. -/
def readByte : List Nat → Res (Nat × List Nat)
  | [] => .fail .eof
  | b :: rest => .ok (b, rest)

/-- Go's `bytes.Buffer.Next(n)`: the next `n` bytes, or fewer when fewer remain. -/
def next (n : Nat) (buf : List Nat) : List Nat × List Nat := (buf.take n, buf.drop n)

/-- Go's `binary.BigEndian.Uint16`: reads `b[0]`, `b[1]`; panics on a shorter slice. -/
def beUint16 : List Nat → Res Nat
  | b0 :: b1 :: _ => .ok (b0 <<< 8 ||| b1)
  | _ => .panic .indexOutOfRange

/-- Go's `binary.BigEndian.Uint32`. -/
def beUint32 : List Nat → Res Nat
  | b0 :: b1 :: b2 :: b3 :: _ => .ok (b0 <<< 24 ||| b1 <<< 16 ||| b2 <<< 8 ||| b3)
  | _ => .panic .indexOutOfRange

/-- Go's `binary.BigEndian.Uint64`. -/
def beUint64 : List Nat → Res Nat
  | b0 :: b1 :: b2 :: b3 :: b4 :: b5 :: b6 :: b7 :: _ =>
    .ok (b0 <<< 56 ||| b1 <<< 48 ||| b2 <<< 40 ||| b3 <<< 32 ||| b4 <<< 24 ||| b5 <<< 16
          ||| b6 <<< 8 ||| b7)
  | _ => .panic .indexOutOfRange

/-! ## `marshal.go` -/

/-- The length switch shared by `marshalStruct`, `marshalMap` and `marshalSlice`: the tag
byte and the chunk for `length`, or `none` in the `default` case (`TooManyValuesErr`). -/
def lengthTag (fix t16 t32 length : Nat) : Option (Nat × Chunk) :=
  if length ≤ Len4 then some ((fix ||| length) % 256, .none)
  else if length ≤ Len16 then some (t16, .u16 (length % 2 ^ 16))
  else if length ≤ Len32 then some (t32, .u32 (length % 2 ^ 32))
  else none

/-- The `reflect.String` case of `encode`, up to `buf.WriteByte(tag)`: the tag and chunk for
a string of `count` bytes; `none` is the `string too long` error. When the string is not
valid UTF-8 and no case of the switch applies, `tag` keeps its zero value and `chunk` is nil. -/
def stringTag (valid : Bool) (count : Nat) : Option (Nat × Chunk) :=
  if valid then
    if count ≤ Len5 then some ((StringFix ||| count) % 256, .none)
    else if count ≤ Len8 then some (String8, .u8 (count % 2 ^ 8))
    else if count ≤ Len16 then some (String16, .u16 (count % 2 ^ 16))
    else if count ≤ Len32 then some (String32, .u32 (count % 2 ^ 32))
    else none
  else
    if count ≤ Len8 then some (Bin8, .u8 (count % 2 ^ 8))
    else if count ≤ Len16 then some (Bin16, .u16 (count % 2 ^ 16))
    else if count ≤ Len32 then some (Bin32, .u32 (count % 2 ^ 32))
    else some (0, .none)

/-- Go's `encode(v, buf)`. The `Uint8`, `Uint16` and `Uint32` cases call `v.Int()`, which
panics on a value of unsigned kind. -/
def encode (v : Value) (buf : List Nat) : Res (List Nat) :=
  match v with
  | .string s =>
    match stringTag (validString s) s.length with
    | none => .fail .stringTooLong
    | some (tag, chunk) => .ok (buf ++ [tag] ++ chunk.bytes ++ s)
  | .float32 bits => .ok (buf ++ [Float32] ++ (Chunk.u32 (quiet32 bits)).bytes)
  | .float64 bits => .ok (buf ++ [Float64] ++ (Chunk.u64 bits).bytes)
  | .int8 i => .ok (buf ++ [Int8] ++ (Chunk.u8 (toUint 8 (toInt 8 i))).bytes)
  | .int16 i => .ok (buf ++ [Int16] ++ (Chunk.u16 (toUint 16 (toInt 16 i))).bytes)
  | .int32 i => .ok (buf ++ [Int32] ++ (Chunk.u32 (toUint 32 (toInt 32 i))).bytes)
  | .int64 i => .ok (buf ++ [Int64] ++ (Chunk.u64 (toUint 64 i)).bytes)
  | .int i => .ok (buf ++ [Int64] ++ (Chunk.u64 (toUint 64 i)).bytes)
  | .uint8 _ => .panic .reflectInt
  | .uint16 _ => .panic .reflectInt
  | .uint32 _ => .panic .reflectInt
  | .uint64 u => .ok (buf ++ [Uint64] ++ (Chunk.u64 u).bytes)
  | .uint u => .ok (buf ++ [Uint64] ++ (Chunk.u64 u).bytes)
  | .bool b => if b then .ok (buf ++ [True]) else .ok (buf ++ [False])
  | .struct _ => .fail (.UnsupportedTypeErr "struct")
  | .map _ => .fail (.UnsupportedTypeErr "map")
  | .slice _ => .fail (.UnsupportedTypeErr "slice")
  | .ptr _ => .fail (.UnsupportedTypeErr "ptr")
  | .iface _ => .fail (.UnsupportedTypeErr "interface")
  | .other kind => .fail (.UnsupportedTypeErr kind)

/-- Go's `reflect.Value.CanSet` for field `f` of a struct value whose addressability is
`addr`: the field is addressable and was not reached through an unexported field. -/
def canSet (addr : Bool) (f : Field) : Bool := addr && f.exported

mutual
/-- Go's `marshal(v, buf, compact)`; `addr` is the addressability of `v`. The `Struct`, `Map`
and `Slice` cases hold the header part of `marshalStruct`, `marshalMap` and `marshalSlice`;
their loops are `marshalFields`, `marshalEntries` and `marshalElems`. -/
def marshal : Value → Bool → List Nat → Bool → Res (List Nat)
  | .struct fs, addr, buf, compact =>
    match lengthTag MapFix Map16 Map32 fs.length with
    | none => .fail .TooManyValuesErr
    | some (tag, chunk) => marshalFields fs addr (buf ++ [tag] ++ chunk.bytes) compact
  | .map none, _, buf, _ => .ok (buf ++ [Nil])
  | .map (some es), _, buf, compact =>
    match lengthTag MapFix Map16 Map32 es.length with
    | none => .fail .TooManyValuesErr
    | some (tag, chunk) => marshalEntries es (buf ++ [tag] ++ chunk.bytes) compact
  | .slice none, _, buf, _ => .ok (buf ++ [Nil])
  | .slice (some xs), _, buf, compact =>
    match lengthTag SliceFix Slice16 Slice32 xs.length with
    | none => .fail .TooManyValuesErr
    | some (tag, chunk) => marshalElems xs (buf ++ [tag] ++ chunk.bytes) compact
  | .ptr none, _, buf, _ => .ok (buf ++ [Nil])
  | .ptr (some x), _, buf, compact => marshal x true buf compact
  | .iface none, _, buf, _ => .ok (buf ++ [Nil])
  | .iface (some x), _, buf, compact => marshal x false buf compact
  | .bool b, _, buf, _ => encode (.bool b) buf
  | .int8 i, _, buf, _ => encode (.int8 i) buf
  | .int16 i, _, buf, _ => encode (.int16 i) buf
  | .int32 i, _, buf, _ => encode (.int32 i) buf
  | .int64 i, _, buf, _ => encode (.int64 i) buf
  | .int i, _, buf, _ => encode (.int i) buf
  | .uint8 u, _, buf, _ => encode (.uint8 u) buf
  | .uint16 u, _, buf, _ => encode (.uint16 u) buf
  | .uint32 u, _, buf, _ => encode (.uint32 u) buf
  | .uint64 u, _, buf, _ => encode (.uint64 u) buf
  | .uint u, _, buf, _ => encode (.uint u) buf
  | .float32 x, _, buf, _ => encode (.float32 x) buf
  | .float64 x, _, buf, _ => encode (.float64 x) buf
  | .string s, _, buf, _ => encode (.string s) buf
  | .other kind, _, buf, _ => encode (.other kind) buf
/-- The field loop of `marshalStruct`: a field that cannot be set is skipped; otherwise the
lower-cased name is encoded (unless `compact`) and then the field value. -/
def marshalFields : List (Field × Value) → Bool → List Nat → Bool → Res (List Nat)
  | [], _, buf, _ => .ok buf
  | (f, v) :: rest, addr, buf, compact =>
    if !canSet addr f then marshalFields rest addr buf compact
    else
      match (if !compact then encode (.string (f.lower)) buf else .ok buf) with
      | .ok buf1 =>
        match marshal v addr buf1 compact with
        | .ok buf2 => marshalFields rest addr buf2 compact
        | .fail e => .fail e
        | .panic p => .panic p
      | .fail e => .fail e
      | .panic p => .panic p
/-- The entry loop of `marshalMap`: key, then value, for every key `MapKeys` yields. -/
def marshalEntries : List (Value × Value) → List Nat → Bool → Res (List Nat)
  | [], buf, _ => .ok buf
  | (k, v) :: rest, buf, compact =>
    match marshal k false buf compact with
    | .ok buf1 =>
      match marshal v false buf1 compact with
      | .ok buf2 => marshalEntries rest buf2 compact
      | .fail e => .fail e
      | .panic p => .panic p
    | .fail e => .fail e
    | .panic p => .panic p
/-- The element loop of `marshalSlice`, in index order. -/
def marshalElems : List Value → List Nat → Bool → Res (List Nat)
  | [], buf, _ => .ok buf
  | v :: rest, buf, compact =>
    match marshal v true buf compact with
    | .ok buf1 => marshalElems rest buf1 compact
    | .fail e => .fail e
    | .panic p => .panic p
end

/-- Go's `runMarshal(v, compact)`: a fresh buffer; `v` is `reflect.ValueOf(d)`, which is not
addressable. -/
def runMarshal (v : Value) (compact : Bool) : Res (List Nat) := marshal v false [] compact

/-- Go's `reflect.ValueOf(d)` for an argument `d interface{}`: the interface is unwrapped, so
the result has the kind of the value `d` holds, never the kind `Interface`; for a nil `d` it
is the zero `reflect.Value`, of kind `Invalid`. -/
def valueOf : Value → Value
  | .iface none => .other "invalid"
  | .iface (some x) => x
  | .bool b => .bool b
  | .int8 i => .int8 i | .int16 i => .int16 i | .int32 i => .int32 i | .int64 i => .int64 i
  | .int i => .int i
  | .uint8 u => .uint8 u | .uint16 u => .uint16 u | .uint32 u => .uint32 u
  | .uint64 u => .uint64 u | .uint u => .uint u
  | .float32 x => .float32 x | .float64 x => .float64 x
  | .string s => .string s
  | .struct fs => .struct fs
  | .map es => .map es
  | .slice xs => .slice xs
  | .ptr x => .ptr x
  | .other kind => .other kind

/-- Go's `Marshal(d)`. -/
def Marshal (d : Value) : Res (List Nat) := runMarshal (valueOf d) false

/-- Go's `MarshalCompact(d)`. -/
def MarshalCompact (d : Value) : Res (List Nat) := runMarshal (valueOf d) true

/-! ## `unmarshal.go` -/

mutual
/-- The zero value of a type, as `reflect.New(t).Elem()` yields it. -/
def zero : Ty → Value
  | .bool => .bool false
  | .int8 => .int8 0 | .int16 => .int16 0 | .int32 => .int32 0 | .int64 => .int64 0
  | .int => .int 0
  | .uint8 => .uint8 0 | .uint16 => .uint16 0 | .uint32 => .uint32 0 | .uint64 => .uint64 0
  | .uint => .uint 0
  | .float32 => .float32 0 | .float64 => .float64 0
  | .string => .string []
  | .struct fs => .struct (zeroFields fs)
  | .map _ _ => .map none
  | .slice _ => .slice none
  | .ptr _ => .ptr none
  | .iface => .iface none
  | .other kind => .other kind
/-- The zero values of the fields of a struct type. -/
def zeroFields : List (Field × Ty) → List (Field × Value)
  | [] => []
  | (f, t) :: rest => (f, zero t) :: zeroFields rest
end

/-- The `reflect.String` case of `decode`, up to `buf.Next(length)`: the length announced by
tag `b`, and the buffer after the length prefix. The `String32`/`Bin32` case takes four bytes
with `buf.Next(4)` and hands them to `binary.BigEndian.Uint16`. -/
def stringLength (b : Nat) (buf : List Nat) : Res (Nat × List Nat) :=
  if b >>> 5 = StringFix >>> 5 then .ok (b &&& 0x1F, buf)
  else if b = String8 ∨ b = Bin8 then
    match readByte buf with
    | .ok (l, rest) => .ok (l, rest)
    | .fail e => .fail e
    | .panic p => .panic p
  else if b = String16 ∨ b = Bin16 then
    match beUint16 (next 2 buf).1 with
    | .ok l => .ok (l, (next 2 buf).2)
    | .fail e => .fail e
    | .panic p => .panic p
  else if b = String32 ∨ b = Bin32 then
    match beUint16 (next 4 buf).1 with
    | .ok l => .ok (l, (next 4 buf).2)
    | .fail e => .fail e
    | .panic p => .panic p
  else .fail (.InvalidTagErr b)

/-- Go's `decode(v, b, buf)` for a destination of static type `t`: the value stored in the
destination and the buffer left. -/
def decode (t : Ty) (b : Nat) (buf : List Nat) : Res (Value × List Nat) :=
  match t with
  | .bool => if b = True then .ok (.bool true, buf) else .ok (.bool false, buf)
  | .string =>
    match stringLength b buf with
    | .ok (length, rest) => .ok (.string (next length rest).1, (next length rest).2)
    | .fail e => .fail e
    | .panic p => .panic p
  | .float32 =>
    if b ≠ Float32 then .fail (.InvalidTagErr b)
    else match beUint32 (next 4 buf).1 with
      | .ok i => .ok (.float32 (quiet32 i), (next 4 buf).2)
      | .fail e => .fail e
      | .panic p => .panic p
  | .float64 =>
    if b ≠ Float64 then .fail (.InvalidTagErr b)
    else match beUint64 (next 8 buf).1 with
      | .ok i => .ok (.float64 i, (next 8 buf).2)
      | .fail e => .fail e
      | .panic p => .panic p
  | .int8 =>
    if b = Int8 then
      match readByte buf with
      | .ok (i, rest) => .ok (.int8 (toInt 8 i), rest)
      | .fail e => .fail e
      | .panic p => .panic p
    else .fail (.InvalidTagErr b)
  | .int16 =>
    if b = Int16 then
      match beUint16 (next 2 buf).1 with
      | .ok i => .ok (.int16 (toInt 16 i), (next 2 buf).2)
      | .fail e => .fail e
      | .panic p => .panic p
    else .fail (.InvalidTagErr b)
  | .int32 =>
    if b = Int32 then
      match beUint32 (next 4 buf).1 with
      | .ok i => .ok (.int32 (toInt 32 i), (next 4 buf).2)
      | .fail e => .fail e
      | .panic p => .panic p
    else .fail (.InvalidTagErr b)
  | .int64 =>
    if b = Int64 then
      match beUint64 (next 8 buf).1 with
      | .ok i => .ok (.int64 (toInt 64 i), (next 8 buf).2)
      | .fail e => .fail e
      | .panic p => .panic p
    else .fail (.InvalidTagErr b)
  | .int =>
    if b = Int64 then
      match beUint64 (next 8 buf).1 with
      | .ok i => .ok (.int (toInt 64 i), (next 8 buf).2)
      | .fail e => .fail e
      | .panic p => .panic p
    else .fail (.InvalidTagErr b)
  | .uint8 =>
    if b = Uint8 then
      match readByte buf with
      | .ok (i, rest) => .ok (.uint8 (i % 2 ^ 8), rest)
      | .fail e => .fail e
      | .panic p => .panic p
    else .fail (.InvalidTagErr b)
  | .uint16 =>
    if b = Uint16 then
      match beUint16 (next 2 buf).1 with
      | .ok i => .ok (.uint16 (i % 2 ^ 16), (next 2 buf).2)
      | .fail e => .fail e
      | .panic p => .panic p
    else .fail (.InvalidTagErr b)
  | .uint32 =>
    if b = Uint32 then
      match beUint32 (next 4 buf).1 with
      | .ok i => .ok (.uint32 (i % 2 ^ 32), (next 4 buf).2)
      | .fail e => .fail e
      | .panic p => .panic p
    else .fail (.InvalidTagErr b)
  | .uint64 =>
    if b = Uint64 then
      match beUint64 (next 8 buf).1 with
      | .ok i => .ok (.uint64 (i % 2 ^ 64), (next 8 buf).2)
      | .fail e => .fail e
      | .panic p => .panic p
    else .fail (.InvalidTagErr b)
  | .uint =>
    if b = Uint64 then
      match beUint64 (next 8 buf).1 with
      | .ok i => .ok (.uint (i % 2 ^ 64), (next 8 buf).2)
      | .fail e => .fail e
      | .panic p => .panic p
    else .fail (.InvalidTagErr b)
  | .struct _ => .fail (.UnsupportedTypeErr "struct")
  | .map _ _ => .fail (.UnsupportedTypeErr "map")
  | .slice _ => .fail (.UnsupportedTypeErr "slice")
  | .ptr _ => .fail (.UnsupportedTypeErr "ptr")
  | .iface => .fail (.UnsupportedTypeErr "interface")
  | .other kind => .fail (.UnsupportedTypeErr kind)

/-- The length switch shared by `unmarshalStruct`, `unmarshalMap` and `unmarshalSlice`: the
length announced by tag `b` and the buffer after the length prefix. -/
def lengthOf (fix t16 t32 b : Nat) (buf : List Nat) : Res (Nat × List Nat) :=
  if b >>> 4 = fix >>> 4 then .ok (b &&& 0x0F, buf)
  else if b = t16 then
    match beUint16 (next 2 buf).1 with
    | .ok l => .ok (l, (next 2 buf).2)
    | .fail e => .fail e
    | .panic p => .panic p
  else if b = t32 then
    match beUint32 (next 4 buf).1 with
    | .ok l => .ok (l, (next 4 buf).2)
    | .fail e => .fail e
    | .panic p => .panic p
  else .fail (.InvalidTagErr b)

/-- A Go loop `for i := 0; i < n; i++` whose body updates a state and the buffer and may
return early with an error. -/
def loopN {σ : Type} : Nat → (σ → List Nat → Res (σ × List Nat)) → σ → List Nat →
    Res (σ × List Nat)
  | 0, _, s, buf => .ok (s, buf)
  | n + 1, body, s, buf =>
    match body s buf with
    | .ok (s1, buf1) => loopN n body s1 buf1
    | .fail e => .fail e
    | .panic p => .panic p

/-- Go's `==` on two `float32` values given by their bits: a NaN equals nothing, the two
zeros are equal, and otherwise the bits decide. -/
def float32Eq (a b : Nat) : Bool :=
  !isNaN32 a && !isNaN32 b && (a == b || (a % 2 ^ 31 == 0 && b % 2 ^ 31 == 0))

/-- Go's `==` on two `float64` values given by their bits. -/
def float64Eq (a b : Nat) : Bool :=
  !isNaN64 a && !isNaN64 b && (a == b || (a % 2 ^ 63 == 0 && b % 2 ^ 63 == 0))

mutual
/-- Equality of map keys, as Go compares them: scalars by value, structs field by field,
interfaces by the value they hold, nil pointers equal to each other. (A pointer that is not
nil is compared by address, which the model does not have; the decoder never produces one
as a key.) -/
def keyEq : Value → Value → Bool
  | .bool a, w => match w with | .bool b => a == b | _ => false
  | .int8 a, w => match w with | .int8 b => a == b | _ => false
  | .int16 a, w => match w with | .int16 b => a == b | _ => false
  | .int32 a, w => match w with | .int32 b => a == b | _ => false
  | .int64 a, w => match w with | .int64 b => a == b | _ => false
  | .int a, w => match w with | .int b => a == b | _ => false
  | .uint8 a, w => match w with | .uint8 b => a == b | _ => false
  | .uint16 a, w => match w with | .uint16 b => a == b | _ => false
  | .uint32 a, w => match w with | .uint32 b => a == b | _ => false
  | .uint64 a, w => match w with | .uint64 b => a == b | _ => false
  | .uint a, w => match w with | .uint b => a == b | _ => false
  | .float32 a, w => match w with | .float32 b => float32Eq a b | _ => false
  | .float64 a, w => match w with | .float64 b => float64Eq a b | _ => false
  | .string a, w => match w with | .string b => a == b | _ => false
  | .struct fs, w => match w with | .struct gs => keyEqFields fs gs | _ => false
  | .iface none, w => match w with | .iface none => true | _ => false
  | .iface (some a), w => match w with | .iface (some b) => keyEq a b | _ => false
  | .ptr none, w => match w with | .ptr none => true | _ => false
  | .ptr (some _), _ => false
  | .map _, _ => false
  | .slice _, _ => false
  | .other _, _ => false
/-- Field-by-field equality of two struct keys of the same type. -/
def keyEqFields : List (Field × Value) → List (Field × Value) → Bool
  | [], gs => gs.isEmpty
  | (_, a) :: fs, gs =>
    match gs with
    | (_, b) :: gs1 => keyEq a b && keyEqFields fs gs1
    | [] => false
end

/-- The entries of a non-nil map after `SetMapIndex(key, value)`. -/
def setMapIndex : List (Value × Value) → Value → Value → List (Value × Value)
  | [], k, v => [(k, v)]
  | (k0, v0) :: rest, k, v =>
    if keyEq k0 k then (k0, v) :: rest else (k0, v0) :: setMapIndex rest k v

/-- The type switch of `unmarshalInterface`: the concrete type tag `b` selects, or `none`
in the `b == Nil` and `default` cases. -/
def ifaceType (b : Nat) : Option Ty :=
  if b = Int8 then some .int8
  else if b = Int16 then some .int16
  else if b = Int32 then some .int32
  else if b = Int64 then some .int64
  else if b = Uint8 then some .uint8
  else if b = Uint16 then some .uint16
  else if b = Uint32 then some .uint32
  else if b = Uint64 then some .uint64
  else if b = Float32 then some .float32
  else if b = Float64 then some .float64
  else if StringFix >>> 5 = b >>> 5 ∨ b = String8 ∨ b = String16 ∨ b = String32 then
    some .string
  else if b = Bin8 ∨ b = Bin16 ∨ b = Bin32 then some .string
  else if b = True ∨ b = False then some .bool
  else none

/-- Go's `unmarshal(v, buf, compact)` on a destination whose kind reaches the `default`
case of the kind switch (every type `ifaceType` yields does). -/
def unmarshalScalar (t : Ty) (cur : Value) (buf : List Nat) : Res (Value × List Nat) :=
  match readByte buf with
  | .ok (b, rest) => if b = Nil then .ok (cur, rest) else decode t b rest
  | .fail e => .fail e
  | .panic p => .panic p

/-- Go's `unmarshalInterface(v, b, buf, compact)`; `buf` still holds the tag byte `b`
(`unmarshal` has called `buf.UnreadByte()`). -/
def unmarshalInterface (cur : Value) (b : Nat) (buf : List Nat) : Res (Value × List Nat) :=
  match ifaceType b with
  | none => .ok (cur, buf)
  | some t =>
    match unmarshalScalar t (zero t) buf with
    | .ok (val, rest) => .ok (.iface (some val), rest)
    | .fail e => .fail e
    | .panic p => .panic p

/-- The current field values of a struct destination. -/
def Value.fields : Value → List (Field × Value)
  | .struct fs => fs
  | _ => []

mutual
/-- Go's `unmarshal(v, buf, compact)`: `t` is the static type of the destination `v` and
`cur` its content; the result is the content after the call and the unread bytes. The
`Struct`, `Slice` and `Map` cases hold `unmarshalStruct`, `unmarshalSlice` and
`unmarshalMap`; the field loop of `unmarshalStruct` is `unmarshalFields`. Every destination
the decoder reaches is addressable. -/
def unmarshal : Ty → Value → List Nat → Bool → Res (Value × List Nat)
  | t, cur, buf, compact =>
    match readByte buf with
    | .fail e => .fail e
    | .panic p => .panic p
    | .ok (b, rest) =>
      if b = Nil then .ok (cur, rest)
      else
        match t with
        | .struct fs =>
          match lengthOf MapFix Map16 Map32 b rest with
          | .fail e => .fail e
          | .panic p => .panic p
          | .ok (length, rest1) =>
            if fs.length > length then .fail .TooFewValuesErr
            else
              match unmarshalFields fs cur.fields rest1 compact with
              | .ok (vs, rest2) => .ok (.struct vs, rest2)
              | .fail e => .fail e
              | .panic p => .panic p
        | .slice et =>
          match lengthOf SliceFix Slice16 Slice32 b rest with
          | .fail e => .fail e
          | .panic p => .panic p
          | .ok (length, rest1) =>
            match loopN length
              (fun (acc : Option (List Value)) bf =>
                match unmarshal et (zero et) bf compact with
                | .ok (f, bf1) => .ok (some (acc.getD [] ++ [f]), bf1)
                | .fail e => .fail e
                | .panic p => .panic p)
              (match cur with | .slice xs => xs | _ => none) rest1 with
            | .ok (xs, rest2) => .ok (.slice xs, rest2)
            | .fail e => .fail e
            | .panic p => .panic p
        | .map kt vt =>
          match lengthOf MapFix Map16 Map32 b rest with
          | .fail e => .fail e
          | .panic p => .panic p
          | .ok (length, rest1) =>
            match loopN length
              (fun (acc : Option (List (Value × Value))) bf =>
                match unmarshal kt (zero kt) bf compact with
                | .ok (key, bf1) =>
                  match unmarshal vt (zero vt) bf1 compact with
                  | .ok (value, bf2) =>
                    match acc with
                    | some es => .ok (some (setMapIndex es key value), bf2)
                    | none => .panic .nilMap
                  | .fail e => .fail e
                  | .panic p => .panic p
                | .fail e => .fail e
                | .panic p => .panic p)
              (match cur with | .map es => es | _ => none) rest1 with
            | .ok (es, rest2) => .ok (.map es, rest2)
            | .fail e => .fail e
            | .panic p => .panic p
        | .iface => unmarshalInterface cur b buf
        | .ptr et =>
          match cur with
          | .ptr (some x) =>
            match unmarshal et x buf compact with
            | .ok (x1, rest1) => .ok (.ptr (some x1), rest1)
            | .fail e => .fail e
            | .panic p => .panic p
          | _ => .fail (.UnsupportedTypeErr "invalid")
        | .bool => decode .bool b rest
        | .int8 => decode .int8 b rest
        | .int16 => decode .int16 b rest
        | .int32 => decode .int32 b rest
        | .int64 => decode .int64 b rest
        | .int => decode .int b rest
        | .uint8 => decode .uint8 b rest
        | .uint16 => decode .uint16 b rest
        | .uint32 => decode .uint32 b rest
        | .uint64 => decode .uint64 b rest
        | .uint => decode .uint b rest
        | .float32 => decode .float32 b rest
        | .float64 => decode .float64 b rest
        | .string => decode .string b rest
        | .other kind => decode (.other kind) b rest
/-- The field loop of `unmarshalStruct` over the fields of the destination type, `cur`
holding the current content of the fields not yet visited. A field that cannot be set is
skipped; otherwise (unless `compact`) one byte is read and a key is decoded into a
throw-away string, then the field value is decoded. -/
def unmarshalFields : List (Field × Ty) → List (Field × Value) → List Nat → Bool →
    Res (List (Field × Value) × List Nat)
  | [], _, buf, _ => .ok ([], buf)
  | (f, t) :: rest, cur, buf, compact =>
    if !canSet true f then
      match unmarshalFields rest cur.tail buf compact with
      | .ok (vs, buf1) => .ok ((f, ((cur.head?.map Prod.snd).getD (zero t))) :: vs, buf1)
      | .fail e => .fail e
      | .panic p => .panic p
    else
      match (if !compact then
          match readByte buf with
          | .ok (b, rest0) =>
            match decode .string b rest0 with
            | .ok (_, rest1) => Res.ok rest1
            | .fail e => .fail e
            | .panic p => .panic p
          | .fail e => .fail e
          | .panic p => .panic p
        else .ok buf) with
      | .ok buf1 =>
        match unmarshal t ((cur.head?.map Prod.snd).getD (zero t)) buf1 compact with
        | .ok (v, buf2) =>
          match unmarshalFields rest cur.tail buf2 compact with
          | .ok (vs, buf3) => .ok ((f, v) :: vs, buf3)
          | .fail e => .fail e
          | .panic p => .panic p
        | .fail e => .fail e
        | .panic p => .panic p
      | .fail e => .fail e
      | .panic p => .panic p
end

/-- Go's `Unmarshal(data, d)`, `d` a pointer to a destination of type `t` holding `cur`:
the content of the destination after the call and the unread bytes `buf.Bytes()`. -/
def Unmarshal (data : List Nat) (t : Ty) (cur : Value) : Res (Value × List Nat) :=
  unmarshal t cur data false

/-- Go's `UnmarshalCompact(data, d)`. -/
def UnmarshalCompact (data : List Nat) (t : Ty) (cur : Value) : Res (Value × List Nat) :=
  unmarshal t cur data true

/-! ## Vocabulary of the statements -/

/-- The record of `TestMarshalError`: `struct { Compact bool; Schema uint8 }` holding
`{Compact: true, Schema: 0}`. -/
def testRecord : Value :=
  .struct [(⟨asciiBytes "Compact", asciiBytes "compact", true⟩, .bool true),
           (⟨asciiBytes "Schema", asciiBytes "schema", true⟩, .uint8 0)]

/-- The bytes `TestMarshalError` expects: `82a7636f6d70616374c3a6736368656d6100`. -/
def testVector : List Nat :=
  [0x82, 0xa7, 0x63, 0x6f, 0x6d, 0x70, 0x61, 0x63, 0x74, 0xc3,
   0xa6, 0x73, 0x63, 0x68, 0x65, 0x6d, 0x61, 0x00]

/-- The signed integer kinds of Go. -/
inductive IntKind where
  | int8 | int16 | int32 | int64 | int
  deriving DecidableEq, Repr

/-- Width in bits (`int` is 64 bits wide where the package compiles: `Len32` overflows a
32-bit `int`). -/
def IntKind.width : IntKind → Nat
  | .int8 => 8 | .int16 => 16 | .int32 => 32 | .int64 => 64 | .int => 64

/-- The static type of a signed kind. -/
def IntKind.ty : IntKind → Ty
  | .int8 => .int8 | .int16 => .int16 | .int32 => .int32 | .int64 => .int64 | .int => .int

/-- The value of a signed kind holding `i`. -/
def IntKind.value : IntKind → Int → Value
  | .int8, i => .int8 i | .int16, i => .int16 i | .int32, i => .int32 i
  | .int64, i => .int64 i | .int, i => .int i

/-- The bytes of an Assoc header that declares length `n` (for `n ≤ 2^32-1`): `0x80|n`, or
`0xDE` and `n` in two big-endian bytes, or `0xDF` and `n` in four big-endian bytes. -/
def assocHeader (n : Nat) : List Nat :=
  if n ≤ 15 then [0x80 ||| n]
  else if n ≤ 65535 then [0xDE, n / 256, n % 256]
  else [0xDF, n / 2 ^ 24, n / 2 ^ 16 % 256, n / 2 ^ 8 % 256, n % 256]

/-- The record layout of the specification, for a header that declares `declared` entries:
`out` is that header followed by one entry per settable field of `fs`, in declaration order,
each entry being the encoding of the lower-cased field name (verbose mode only) followed by
the encoding of the field value. -/
def recordLayout (declared : Nat) (fs : List (Field × Value)) (addr compact : Bool)
    (out : List Nat) : Prop :=
  ∃ entries : List (List Nat),
    List.Forall₂
      (fun (fv : Field × Value) (e : List Nat) => ∃ key val, e = key ++ val
        ∧ (if compact then key = [] else encode (.string (fv.1.lower)) [] = .ok key)
        ∧ marshal fv.2 addr [] compact = .ok val)
      (fs.filter (fun fv => canSet addr fv.1)) entries
    ∧ out = assocHeader declared ++ entries.flatten

/-- A record with an exported field `A` and an unexported field `b`, both `true`. -/
def mixedRecord : List (Field × Value) :=
  [(⟨asciiBytes "A", asciiBytes "a", true⟩, .bool true),
   (⟨asciiBytes "b", asciiBytes "b", false⟩, .bool true)]

/-- The field values C8 speaks of: a signed integer of some kind, a boolean, or a text. -/
inductive Simple where
  | int (k : IntKind) (i : Int)
  | bool (b : Bool)
  | text (s : List Nat)

/-- The Go value of a simple field. -/
def Simple.value : Simple → Value
  | .int k i => k.value i
  | .bool b => .bool b
  | .text s => .string s

/-- The static type of a simple field. -/
def Simple.ty : Simple → Ty
  | .int k _ => k.ty
  | .bool _ => .bool
  | .text _ => .string

/-- A signed integer lies in the range of its kind; a text is valid UTF-8 and shorter than
65536 bytes. -/
def Simple.wf : Simple → Bool
  | .int k i => decide (-(2 : Int) ^ (k.width - 1) ≤ i) && decide (i < (2 : Int) ^ (k.width - 1))
  | .bool _ => true
  | .text s => validString s && decide (s.length < 65536)

/-- The record value with the given fields. -/
def recordValue (r : List (Field × Simple)) : Value :=
  .struct (r.map (fun fs => (fs.1, fs.2.value)))

/-- The record type with the given fields. -/
def recordType (r : List (Field × Simple)) : Ty :=
  .struct (r.map (fun fs => (fs.1, fs.2.ty)))


/-- A record with one exported field whose name has 65536 bytes (`A` followed by 65535
letters `a`), holding `true`. -/
def longNameRecord : List (Field × Simple) :=
  [(⟨0x41 :: List.replicate 65535 0x61, List.replicate 65536 0x61, true⟩, .bool true)]

/-- A record with `2^32` exported boolean fields `A0`, `A1`, ... -/
def hugeRecord : List (Field × Simple) :=
  (List.range 4294967296).map
    (fun i => (⟨0x41 :: (Nat.toDigits 10 i).map Char.toNat,
      0x61 :: (Nat.toDigits 10 i).map Char.toNat, true⟩, Simple.bool true))

/-- A record with a boolean, a 16-bit integer and a text field. -/
def sampleRecord : List (Field × Simple) :=
  [(⟨asciiBytes "Compact", asciiBytes "compact", true⟩, .bool true),
   (⟨asciiBytes "Level", asciiBytes "level", true⟩, .int .int16 (-2)),
   (⟨asciiBytes "Name", asciiBytes "name", true⟩, .text (asciiBytes "pack"))]

/-- The one tag `decode` accepts for a destination of numeric kind. -/
def numericTag : Ty → Option Nat
  | .int8 => some Int8 | .int16 => some Int16 | .int32 => some Int32 | .int64 => some Int64
  | .int => some Int64
  | .uint8 => some Uint8 | .uint16 => some Uint16 | .uint32 => some Uint32
  | .uint64 => some Uint64 | .uint => some Uint64
  | .float32 => some Float32 | .float64 => some Float64
  | _ => none

/-- The bytes of a Sequence header that declares `n` elements (for `n ≤ 2^32-1`): `0x90|n`,
or `0xDC` and `n` in two big-endian bytes, or `0xDD` and `n` in four big-endian bytes. -/
def seqHeader (n : Nat) : List Nat :=
  if n ≤ 15 then [0x90 ||| n]
  else if n ≤ 65535 then [0xDC, n / 256, n % 256]
  else [0xDD, n / 2 ^ 24, n / 2 ^ 16 % 256, n / 2 ^ 8 % 256, n % 256]

/-- The tag-to-type table of the specification for a dynamically-typed slot: `Int8` to
8-bit signed, ..., `Uint64` to 64-bit unsigned, `Float32`, `Float64`, every Text tag
(`0xA0..0xBF`, `0xD9`, `0xDA`, `0xDB`) and every Bytes tag (`0xC4`, `0xC5`, `0xC6`) to text,
`True` and `False` to bool; no type for any other byte. -/
def slotType (b : Nat) : Option Ty :=
  if b = 0xD0 then some .int8
  else if b = 0xD1 then some .int16
  else if b = 0xD2 then some .int32
  else if b = 0xD3 then some .int64
  else if b = 0xCC then some .uint8
  else if b = 0xCD then some .uint16
  else if b = 0xCE then some .uint32
  else if b = 0xCF then some .uint64
  else if b = 0xCA then some .float32
  else if b = 0xCB then some .float64
  else if (0xA0 ≤ b ∧ b ≤ 0xBF) ∨ b = 0xD9 ∨ b = 0xDA ∨ b = 0xDB then some .string
  else if b = 0xC4 ∨ b = 0xC5 ∨ b = 0xC6 then some .string
  else if b = 0xC3 ∨ b = 0xC2 then some .bool
  else none

/-- A record type with an exported field `A` and an unexported field `b`, both `int8`. -/
def mixedType : List (Field × Ty) :=
  [(⟨asciiBytes "A", asciiBytes "a", true⟩, .int8), (⟨asciiBytes "b", asciiBytes "b", false⟩, .int8)]

/-- A signed integer lies in the range of its kind; a text is shorter than 65536 bytes. -/
def Simple.fits : Simple → Bool
  | .int k i => decide (-(2 : Int) ^ (k.width - 1) ≤ i) && decide (i < (2 : Int) ^ (k.width - 1))
  | .bool _ => true
  | .text s => decide (s.length < 65536)

/-- The length headers of a Text or Bytes value that the decoder reads in full: the length
inline in the tag (Text only), in one byte, or in two bytes. -/
inductive KeyClass where
  | textFix | text8 | bytes8 | text16 | bytes16
  deriving DecidableEq, Repr

/-- A Text or Bytes value on the wire in the place of a key: the class of its length header
and its content. The class need not be the smallest one that holds the length. -/
structure Key where
  cls : KeyClass
  content : List Nat
  deriving DecidableEq, Repr

/-- The key is well formed: the length of its content fits its length header. -/
def Key.wf (k : Key) : Bool :=
  match k.cls with
  | .textFix => decide (k.content.length ≤ 31)
  | .text8 => decide (k.content.length ≤ 255)
  | .bytes8 => decide (k.content.length ≤ 255)
  | .text16 => decide (k.content.length ≤ 65535)
  | .bytes16 => decide (k.content.length ≤ 65535)

/-- The bytes of a key: tag, length and content. -/
def Key.bytes (k : Key) : List Nat :=
  match k.cls with
  | .textFix => (StringFix ||| k.content.length) :: k.content
  | .text8 => String8 :: k.content.length :: k.content
  | .bytes8 => Bin8 :: k.content.length :: k.content
  | .text16 => String16 :: ((Chunk.u16 k.content.length).bytes ++ k.content)
  | .bytes16 => Bin16 :: ((Chunk.u16 k.content.length).bytes ++ k.content)

/-- An entry of a verbose Assoc on the wire: its key, the bytes of its value, and the value
those bytes stand for. -/
structure Entry where
  key : Key
  val : List Nat
  decoded : Value

/-- The bytes of an entry: its key, then its value. -/
def Entry.bytes (e : Entry) : List Nat := e.key.bytes ++ e.val

/-- The bytes of a run of entries. -/
def entriesBytes (es : List Entry) : List Nat := (es.map Entry.bytes).flatten

/-- The settable fields of a record destination in order, each with its type and with what
it holds when decoding starts (`v.Field(i)` for every `i` with `f.CanSet()`). -/
def slots : List (Field × Ty) → List (Field × Value) → List (Ty × Value)
  | [], _ => []
  | (f, t) :: fs, cur =>
    if canSet true f then (t, (cur.head?.map Prod.snd).getD (zero t)) :: slots fs cur.tail
    else slots fs cur.tail

/-- An entry suits a settable field, given as its type and its current content: the key is
well formed and the value bytes are an encoding that this field decodes, consuming exactly
those bytes, into the value of the entry. -/
def Entry.fitsSlot (sl : Ty × Value) (e : Entry) : Prop :=
  e.key.wf = true
    ∧ ∀ rest : List Nat, unmarshal sl.1 sl.2 (e.val ++ rest) false = .ok (e.decoded, rest)

/-- Positional assignment: the settable fields of the destination take the values `vs` in
order, every other field keeps its current content. -/
def assign : List (Field × Ty) → List (Field × Value) → List Value → List (Field × Value)
  | [], _, _ => []
  | (f, t) :: fs, cur, vs =>
    if canSet true f then
      match vs with
      | v :: vs1 => (f, v) :: assign fs cur.tail vs1
      | [] => (f, (cur.head?.map Prod.snd).getD (zero t)) :: assign fs cur.tail []
    else (f, (cur.head?.map Prod.snd).getD (zero t)) :: assign fs cur.tail vs

/-- The value bytes `val` are self-delimiting for a settable field, given as its type and
its current content: the outcome of decoding does not depend on the bytes that follow
`val`, and on success exactly `val` is consumed. -/
def selfDelimited (sl : Ty × Value) (val : List Nat) : Prop :=
  ∃ out : Res Value,
    ∀ rest : List Nat, unmarshal sl.1 sl.2 (val ++ rest) false = out.map (fun v => (v, rest))

/-- A record type with two exported and two unexported fields, all `int8`. -/
def wideType : List (Field × Ty) :=
  [(⟨asciiBytes "A", asciiBytes "a", true⟩, .int8), (⟨asciiBytes "B", asciiBytes "b", true⟩, .int8),
   (⟨asciiBytes "c", asciiBytes "c", false⟩, .int8), (⟨asciiBytes "d", asciiBytes "d", false⟩, .int8)]

/-- Three entries `a: 1`, `b: 2`, `c: 3` with 8-bit signed values and inline Text keys. -/
def threeEntries : List Entry :=
  [⟨⟨.textFix, asciiBytes "a"⟩, [0xD0, 1], .int8 1⟩,
   ⟨⟨.textFix, asciiBytes "b"⟩, [0xD0, 2], .int8 2⟩,
   ⟨⟨.textFix, asciiBytes "c"⟩, [0xD0, 3], .int8 3⟩]

/-- A record type with an exported `int8` field and an exported field that is a pointer to
an `int8`. -/
def pairType : List (Field × Ty) :=
  [(⟨asciiBytes "A", asciiBytes "a", true⟩, .int8),
   (⟨asciiBytes "B", asciiBytes "b", true⟩, .ptr .int8)]

/-- A destination of type `pairType` whose pointer field refers to storage. -/
def pairDest : Value :=
  .struct [(⟨asciiBytes "A", asciiBytes "a", true⟩, .int8 0),
           (⟨asciiBytes "B", asciiBytes "b", true⟩, .ptr (some (.int8 0)))]

/-- Three entries for `pairDest`: `a: 1` with a Text key whose length is in one byte, `b: 2`
with a Bytes key whose length is in two bytes, `c: 3` with an inline Text key. -/
def mixedEntries : List Entry :=
  [⟨⟨.text8, asciiBytes "a"⟩, [0xD0, 1], .int8 1⟩,
   ⟨⟨.bytes16, asciiBytes "b"⟩, [0xD0, 2], .ptr (some (.int8 2))⟩,
   ⟨⟨.textFix, asciiBytes "c"⟩, [0xD0, 3], .int8 3⟩]

/-- Two keys for one value on the wire: the entry as the first input has it and as the
second input has it. -/
structure KeyPair where
  keyA : Key
  keyB : Key
  val : List Nat

/-- The entries of the first input. -/
def bytesA (ps : List KeyPair) : List Nat := (ps.map (fun p => p.keyA.bytes ++ p.val)).flatten

/-- The entries of the second input. -/
def bytesB (ps : List KeyPair) : List Nat := (ps.map (fun p => p.keyB.bytes ++ p.val)).flatten

/-- A pair of entries suits a settable field, given as its type and its current content:
both keys are well formed and the value bytes are self-delimiting for the field. -/
def KeyPair.fitsSlot (sl : Ty × Value) (p : KeyPair) : Prop :=
  p.keyA.wf = true ∧ p.keyB.wf = true ∧ selfDelimited sl p.val

/-- A record type with one exported boolean field. -/
def flagType : List (Field × Ty) := [(⟨asciiBytes "A", asciiBytes "a", true⟩, .bool)]

/-! ## Big-endian payloads -/

/-- A pointer is handed to the encoder as it is. -/
theorem valueOf_ptr (x : Option Value) : valueOf (.ptr x) = .ptr x := rfl

/-- A record is handed to the encoder as it is. -/
theorem valueOf_struct (fs : List (Field × Value)) : valueOf (.struct fs) = .struct fs := rfl

/-- A slice is handed to the encoder as it is. -/
theorem valueOf_slice (xs : Option (List Value)) : valueOf (.slice xs) = .slice xs := rfl

/-- A map is handed to the encoder as it is. -/
theorem valueOf_map (es : Option (List (Value × Value))) : valueOf (.map es) = .map es := rfl

/-- A string is handed to the encoder as it is. -/
theorem valueOf_string (s : List Nat) : valueOf (.string s) = .string s := rfl

/-- A signed integer, a boolean and a text are handed to the encoder as they are. -/
theorem valueOf_simple (s : Simple) : valueOf s.value = s.value := by
  cases s with
  | int k i => cases k <;> rfl
  | bool b => rfl
  | text t => rfl


theorem or_eq_add_of_dvd (i a b : Nat) (ha : 2 ^ i ∣ a) (hb : b < 2 ^ i) : a ||| b = a + b := by
  obtain ⟨c, rfl⟩ := ha
  exact (Nat.mul_add_lt_is_or hb c).symm

theorem beUint16_eq (b0 b1 : Nat) (rest : List Nat) (h1 : b1 < 256) :
    beUint16 (b0 :: b1 :: rest) = .ok (b0 * 256 + b1) := by
  simp only [beUint16, Nat.shiftLeft_eq]
  rw [or_eq_add_of_dvd 8 _ _ (by omega) (by omega)]

theorem beUint32_eq (b0 b1 b2 b3 : Nat) (rest : List Nat) (h1 : b1 < 256) (h2 : b2 < 256)
    (h3 : b3 < 256) :
    beUint32 (b0 :: b1 :: b2 :: b3 :: rest)
      = .ok (b0 * 2 ^ 24 + b1 * 2 ^ 16 + b2 * 2 ^ 8 + b3) := by
  simp only [beUint32, Nat.shiftLeft_eq]
  rw [or_eq_add_of_dvd 24 (b0 * 2 ^ 24) (b1 * 2 ^ 16) (by omega) (by omega),
    or_eq_add_of_dvd 16 _ (b2 * 2 ^ 8) (by omega) (by omega),
    or_eq_add_of_dvd 8 _ b3 (by omega) (by omega)]

theorem beUint64_eq (b0 b1 b2 b3 b4 b5 b6 b7 : Nat) (rest : List Nat) (h1 : b1 < 256)
    (h2 : b2 < 256) (h3 : b3 < 256) (h4 : b4 < 256) (h5 : b5 < 256) (h6 : b6 < 256)
    (h7 : b7 < 256) :
    beUint64 (b0 :: b1 :: b2 :: b3 :: b4 :: b5 :: b6 :: b7 :: rest)
      = .ok (b0 * 2 ^ 56 + b1 * 2 ^ 48 + b2 * 2 ^ 40 + b3 * 2 ^ 32 + b4 * 2 ^ 24 + b5 * 2 ^ 16
          + b6 * 2 ^ 8 + b7) := by
  simp only [beUint64, Nat.shiftLeft_eq]
  rw [or_eq_add_of_dvd 56 (b0 * 2 ^ 56) (b1 * 2 ^ 48) (by omega) (by omega),
    or_eq_add_of_dvd 48 _ (b2 * 2 ^ 40) (by omega) (by omega),
    or_eq_add_of_dvd 40 _ (b3 * 2 ^ 32) (by omega) (by omega),
    or_eq_add_of_dvd 32 _ (b4 * 2 ^ 24) (by omega) (by omega),
    or_eq_add_of_dvd 24 _ (b5 * 2 ^ 16) (by omega) (by omega),
    or_eq_add_of_dvd 16 _ (b6 * 2 ^ 8) (by omega) (by omega),
    or_eq_add_of_dvd 8 _ b7 (by omega) (by omega)]

theorem next_u16 (x : Nat) (rest : List Nat) :
    next 2 ((Chunk.u16 x).bytes ++ rest) = ((Chunk.u16 x).bytes, rest) := by
  simp [next, Chunk.bytes]

theorem next_u32 (x : Nat) (rest : List Nat) :
    next 4 ((Chunk.u32 x).bytes ++ rest) = ((Chunk.u32 x).bytes, rest) := by
  simp [next, Chunk.bytes]

theorem next_u64 (x : Nat) (rest : List Nat) :
    next 8 ((Chunk.u64 x).bytes ++ rest) = ((Chunk.u64 x).bytes, rest) := by
  simp [next, Chunk.bytes]

theorem beUint16_bytes (x : Nat) : beUint16 (Chunk.u16 x).bytes = .ok (x % 2 ^ 16) := by
  simp only [Chunk.bytes]
  rw [beUint16_eq _ _ _ (by omega)]
  simp only [Nat.shiftRight_eq_div_pow]
  congr 1; omega

theorem beUint32_bytes (x : Nat) : beUint32 (Chunk.u32 x).bytes = .ok (x % 2 ^ 32) := by
  simp only [Chunk.bytes]
  rw [beUint32_eq _ _ _ _ _ (by omega) (by omega) (by omega)]
  simp only [Nat.shiftRight_eq_div_pow]
  congr 1; omega

theorem beUint64_bytes (x : Nat) : beUint64 (Chunk.u64 x).bytes = .ok (x % 2 ^ 64) := by
  simp only [Chunk.bytes]
  rw [beUint64_eq _ _ _ _ _ _ _ _ _ (by omega) (by omega) (by omega) (by omega) (by omega)
    (by omega) (by omega)]
  simp only [Nat.shiftRight_eq_div_pow]
  congr 1; omega

theorem toInt_id (w : Nat) (hw : 0 < w) (i : Int) (hlo : -(2 : Int) ^ (w - 1) ≤ i)
    (hhi : i < (2 : Int) ^ (w - 1)) : toInt w i = i := by
  obtain ⟨k, rfl⟩ : ∃ k, w = k + 1 := ⟨w - 1, by omega⟩
  simp only [toInt, Nat.add_sub_cancel] at *
  have h2 : (2 : Int) ^ (k + 1) = 2 * 2 ^ k := by ring
  rw [h2]
  generalize (2 : Int) ^ k = p at *
  rw [Int.emod_eq_of_lt (by omega) (by omega)]
  omega

theorem toInt_toUint (w : Nat) (hw : 0 < w) (i : Int) (hlo : -(2 : Int) ^ (w - 1) ≤ i)
    (hhi : i < (2 : Int) ^ (w - 1)) : toInt w ((toUint w i : Nat) : Int) = i := by
  obtain ⟨k, rfl⟩ : ∃ k, w = k + 1 := ⟨w - 1, by omega⟩
  simp only [toInt, toUint, Nat.add_sub_cancel] at *
  have h2 : (2 : Int) ^ (k + 1) = 2 * 2 ^ k := by ring
  have hp : (0 : Int) < 2 ^ k := by positivity
  rw [h2]
  generalize (2 : Int) ^ k = p at *
  rw [Int.toNat_of_nonneg (Int.emod_nonneg _ (by omega))]
  have h3 : (i % (2 * p) + p) % (2 * p) = (i + p) % (2 * p) := by
    rw [Int.add_emod, Int.emod_emod_of_dvd _ (dvd_refl _), ← Int.add_emod]
  rw [h3, Int.emod_eq_of_lt (by omega) (by omega)]
  omega

theorem toUint_lt (w : Nat) (i : Int) : toUint w i < 2 ^ w := by
  unfold toUint
  have hp : (0 : Int) < 2 ^ w := by positivity
  have h1 := Int.emod_lt_of_pos i hp
  have h0 := Int.emod_nonneg i (ne_of_gt hp)
  zify
  rw [Int.toNat_of_nonneg h0]
  exact_mod_cast h1

/-- What a signed value of width `w` becomes after `intN(v.Int())`, the big-endian write,
the big-endian read and `SetInt`: itself. -/
theorem toInt_wire (w : Nat) (hw : 0 < w) (i : Int) (hlo : -(2 : Int) ^ (w - 1) ≤ i)
    (hhi : i < (2 : Int) ^ (w - 1)) :
    toInt w ((toUint w (toInt w i) % 2 ^ w : Nat) : Int) = i := by
  rw [toInt_id w hw i hlo hhi, Nat.mod_eq_of_lt (toUint_lt w i), toInt_toUint w hw i hlo hhi]

/-! ## The test vector, integers and strings -/

/-- C1: `Marshal` of the record of `TestMarshalError`, `{Compact: true, Schema: 0}`, does
not return the 18 bytes the test expects. Passed by value, as the test does, the record is
not addressable, none of its fields can be set, and the output is the header `0x82` alone;
passed by pointer, encoding the `uint8` field panics in `reflect.Value.Int`. -/
theorem C1_test_vector_not_produced :
    Marshal testRecord = .ok [0x82]
      ∧ Marshal (.ptr (some testRecord)) = .panic .reflectInt
      ∧ Marshal testRecord ≠ .ok testVector
      ∧ Marshal (.ptr (some testRecord)) ≠ .ok testVector := by
  decide

/-- C2: signed-integer round trip. For every signed kind and every value `v` in the range of
the kind, `Marshal` succeeds and `Unmarshal` of its bytes into a destination of the same
kind (whatever it holds) succeeds, stores exactly `v` and leaves no byte unread. -/
theorem C2_signed_round_trip (k : IntKind) (v : Int)
    (hlo : -(2 : Int) ^ (k.width - 1) ≤ v) (hhi : v < (2 : Int) ^ (k.width - 1))
    (cur : Value) :
    ∃ bytes, Marshal (k.value v) = .ok bytes
      ∧ Unmarshal bytes k.ty cur = .ok (k.value v, []) := by
  cases k
  · refine ⟨Int8 :: (Chunk.u8 (toUint 8 (toInt 8 v))).bytes, rfl, ?_⟩
    have h := toInt_wire 8 (by decide) v hlo hhi
    simp only [Unmarshal, unmarshal, readByte, decode, Chunk.bytes, IntKind.ty, IntKind.value,
      List.cons_append, List.nil_append, Int8, Nil]
    simp only [Nat.reduceEqDiff, if_false, if_true]
    norm_num at h ⊢
    exact h
  · refine ⟨Int16 :: (Chunk.u16 (toUint 16 (toInt 16 v))).bytes, rfl, ?_⟩
    have h := toInt_wire 16 (by decide) v hlo hhi
    have hn := next_u16 (toUint 16 (toInt 16 v)) []
    rw [List.append_nil] at hn
    simp only [Unmarshal, unmarshal, readByte, decode, IntKind.ty, IntKind.value,
      List.cons_append, List.nil_append, Int16, Nil, hn, beUint16_bytes]
    simp only [Nat.reduceEqDiff, if_false, if_true]
    rw [h]
  · refine ⟨Int32 :: (Chunk.u32 (toUint 32 (toInt 32 v))).bytes, rfl, ?_⟩
    have h := toInt_wire 32 (by decide) v hlo hhi
    have hn := next_u32 (toUint 32 (toInt 32 v)) []
    rw [List.append_nil] at hn
    simp only [Unmarshal, unmarshal, readByte, decode, IntKind.ty, IntKind.value,
      List.cons_append, List.nil_append, Int32, Nil, hn, beUint32_bytes]
    simp only [Nat.reduceEqDiff, if_false, if_true]
    rw [h]
  · refine ⟨Int64 :: (Chunk.u64 (toUint 64 v)).bytes, rfl, ?_⟩
    have h := toInt_toUint 64 (by decide) v hlo hhi
    have hn := next_u64 (toUint 64 v) []
    rw [List.append_nil] at hn
    simp only [Unmarshal, unmarshal, readByte, decode, IntKind.ty, IntKind.value,
      List.cons_append, List.nil_append, Int64, Nil, hn, beUint64_bytes]
    simp only [Nat.reduceEqDiff, if_false, if_true]
    rw [Nat.mod_eq_of_lt (toUint_lt 64 v), h]
  · refine ⟨Int64 :: (Chunk.u64 (toUint 64 v)).bytes, rfl, ?_⟩
    have h := toInt_toUint 64 (by decide) v hlo hhi
    have hn := next_u64 (toUint 64 v) []
    rw [List.append_nil] at hn
    simp only [Unmarshal, unmarshal, readByte, decode, IntKind.ty, IntKind.value,
      List.cons_append, List.nil_append, Int64, Nil, hn, beUint64_bytes]
    simp only [Nat.reduceEqDiff, if_false, if_true]
    rw [Nat.mod_eq_of_lt (toUint_lt 64 v), h]

/-- Witness of C2: the 16-bit value `-2` travels as `d1 ff fe` and comes back. -/
theorem C2_signed_round_trip_witness :
    ∃ bytes, Marshal (IntKind.int16.value (-2)) = .ok bytes
      ∧ Unmarshal bytes IntKind.int16.ty (.int16 7) = .ok (IntKind.int16.value (-2), []) :=
  C2_signed_round_trip .int16 (-2) (by decide) (by decide) (.int16 7)

/-- C3: `Marshal` of an unsigned integer of width 8, 16 or 32 does not return: `encode`
evaluates `v.Int()` on a value of unsigned kind, which panics, whatever the value. Only the
64-bit kinds, read with `v.Uint()`, yield the tag `0xCF` and the 8-byte big-endian payload. -/
theorem C3_unsigned_marshal_panics (x : Nat) :
    Marshal (.uint8 x) = .panic .reflectInt
      ∧ Marshal (.uint16 x) = .panic .reflectInt
      ∧ Marshal (.uint32 x) = .panic .reflectInt
      ∧ Marshal (.uint64 x)
          = .ok [0xCF, x / 2 ^ 56 % 256, x / 2 ^ 48 % 256, x / 2 ^ 40 % 256, x / 2 ^ 32 % 256,
              x / 2 ^ 24 % 256, x / 2 ^ 16 % 256, x / 2 ^ 8 % 256, x % 256] := by
  refine ⟨rfl, rfl, rfl, ?_⟩
  simp [Marshal, runMarshal, marshal, encode, Chunk.bytes, Uint64, Nat.shiftRight_eq_div_pow]

theorem validString_cons_ascii (b : Nat) (rest : List Nat) (h : b < 0x80) :
    validString (b :: rest) = validString rest := by
  simp [validString, validFrom, h]

theorem validString_cons_high (b : Nat) (rest : List Nat) (h : 0xF5 ≤ b) :
    validString (b :: rest) = false := by
  have h1 : ¬ b < 0x80 := by omega
  have h2 : inRange 0xC2 0xDF b = false := by simp [inRange]; omega
  have h3 : inRange 0xE1 0xEF b = false := by simp [inRange]; omega
  have h4 : inRange 0xF1 0xF3 b = false := by simp [inRange]; omega
  have h5 : b ≠ 0xE0 := by omega
  have h6 : b ≠ 0xED := by omega
  have h7 : b ≠ 0xF0 := by omega
  have h8 : b ≠ 0xF4 := by omega
  simp [validString, validFrom, h1, h2, h3, h4, h5, h6, h7, h8]

theorem validString_replicate_ascii (n : Nat) : validString (List.replicate n 0x61) = true := by
  induction n with
  | zero => rfl
  | succ n ih => rw [List.replicate_succ, validString_cons_ascii _ _ (by decide), ih]

/-- What `Marshal` returns for a string: the tag and chunk `stringTag` selects, then the
bytes. -/
theorem marshal_string (s : List Nat) :
    Marshal (.string s)
      = match stringTag (validString s) s.length with
        | none => .fail .stringTooLong
        | some (tag, chunk) => .ok (tag :: (chunk.bytes ++ s)) := by
  simp only [Marshal, runMarshal, marshal, encode]
  cases stringTag (validString s) s.length with
  | none => rfl
  | some tc => simp

/-- After the tag `String32` the decoder takes four length bytes and reads the first two. -/
theorem unmarshal_string32_one (x : Nat) (rest : List Nat) (cur : Value) :
    Unmarshal (0xDB :: 0 :: 1 :: 0 :: 0 :: x :: rest) .string cur = .ok (.string [x], rest) :=
  rfl

/-- C4: a text of 65536 bytes does not survive the round trip. `Marshal` writes the
`String32` tag and the 32-bit length `00 01 00 00`; `decode` takes the four length bytes but
reads them with `binary.BigEndian.Uint16`, so the length becomes 1: `Unmarshal` succeeds,
stores a one-byte text and returns the other 65535 bytes as remainder. -/
theorem C4_string32_length_truncated :
    Marshal (.string (List.replicate 65536 0x61))
        = .ok (0xDB :: 0 :: 1 :: 0 :: 0 :: List.replicate 65536 0x61)
      ∧ Unmarshal (0xDB :: 0 :: 1 :: 0 :: 0 :: List.replicate 65536 0x61) .string (.string [])
        = .ok (.string [0x61], List.replicate 65535 0x61) := by
  constructor
  · have ht : stringTag true 65536 = some (0xDB, .u32 65536) := by decide
    have hb : (Chunk.u32 65536).bytes = [0, 1, 0, 0] := by decide
    rw [marshal_string, validString_replicate_ascii, List.length_replicate, ht]
    generalize List.replicate 65536 0x61 = l
    simp only [hb, List.cons_append, List.nil_append]
  · rw [show List.replicate 65536 0x61 = 0x61 :: List.replicate 65535 0x61 from
      List.replicate_succ 0x61 65535]
    exact unmarshal_string32_one 0x61 (List.replicate 65535 0x61) (.string [])

/-- C5: text length class. For a valid UTF-8 string of `n` bytes `Marshal` returns a header
followed by the `n` bytes: `0xA0|n` for `n ≤ 31`; `0xD9` and `n` in one byte for
`32 ≤ n ≤ 255`; `0xDA` and `n` in two big-endian bytes for `256 ≤ n ≤ 65535`; `0xDB` and `n`
in four big-endian bytes for `65536 ≤ n ≤ 2^32-1`; and it fails for `n > 2^32-1`. -/
theorem C5_text_length_class (s : List Nat) (hv : validString s = true) :
    (s.length ≤ 31 → Marshal (.string s) = .ok ((0xA0 ||| s.length) :: s))
      ∧ (32 ≤ s.length → s.length ≤ 255 → Marshal (.string s) = .ok (0xD9 :: s.length :: s))
      ∧ (256 ≤ s.length → s.length ≤ 65535 →
          Marshal (.string s) = .ok (0xDA :: s.length / 256 :: s.length % 256 :: s))
      ∧ (65536 ≤ s.length → s.length ≤ 2 ^ 32 - 1 →
          Marshal (.string s)
            = .ok (0xDB :: s.length / 2 ^ 24 :: s.length / 2 ^ 16 % 256
                :: s.length / 2 ^ 8 % 256 :: s.length % 256 :: s))
      ∧ (2 ^ 32 - 1 < s.length → Marshal (.string s) = .fail .stringTooLong) := by
  have hm : ∀ r, stringTag true s.length = r → Marshal (.string s)
      = match r with
        | none => .fail .stringTooLong
        | some (tag, chunk) => .ok ([] ++ [tag] ++ chunk.bytes ++ s) := by
    intro r hr
    simp only [Marshal, runMarshal, marshal, encode, hv, hr]
  refine ⟨fun h => ?_, fun h1 h2 => ?_, fun h1 h2 => ?_, fun h1 h2 => ?_, fun h => ?_⟩
  · have hb : (0xA0 ||| s.length) % 256 = 0xA0 ||| s.length := by
      generalize s.length = n at h
      interval_cases n <;> rfl
    rw [hm _ rfl]
    simp [stringTag, Len5, StringFix, h, hb, Chunk.bytes]
  · rw [hm _ rfl]
    have h3 : ¬ s.length ≤ 31 := by omega
    simp [stringTag, Len5, Len8, String8, h3, h2, Chunk.bytes]
    omega
  · rw [hm _ rfl]
    have h3 : ¬ s.length ≤ 31 := by omega
    have h4 : ¬ s.length ≤ 255 := by omega
    simp [stringTag, Len5, Len8, Len16, String16, h3, h4, h2, Chunk.bytes,
      Nat.shiftRight_eq_div_pow]
    omega
  · rw [hm _ rfl]
    have h3 : ¬ s.length ≤ 31 := by omega
    have h4 : ¬ s.length ≤ 255 := by omega
    have h5 : ¬ s.length ≤ 65535 := by omega
    have h6 : s.length ≤ 4294967295 := by omega
    simp [stringTag, Len5, Len8, Len16, Len32, String32, h3, h4, h5, h6, Chunk.bytes,
      Nat.shiftRight_eq_div_pow]
    omega
  · rw [hm _ rfl]
    have h3 : ¬ s.length ≤ 31 := by omega
    have h4 : ¬ s.length ≤ 255 := by omega
    have h5 : ¬ s.length ≤ 65535 := by omega
    have h6 : ¬ s.length ≤ 4294967295 := by omega
    simp [stringTag, Len5, Len8, Len16, Len32, h3, h4, h5, h6]

/-- Witness of C5: the 7-byte text `compact` gets the inline header `0xA7`. -/
theorem C5_text_length_class_witness :
    Marshal (.string (asciiBytes "compact"))
      = .ok ((0xA0 ||| (asciiBytes "compact").length) :: asciiBytes "compact") :=
  (C5_text_length_class (asciiBytes "compact") (by decide)).1 (by decide)

/-- For a string that is not valid UTF-8 and has at most `2^32-1` bytes the tag is `Bin8`,
`Bin16` or `Bin32`, by byte count. -/
theorem marshal_invalid_utf8_tag (s : List Nat) (hv : validString s = false)
    (hl : s.length ≤ 2 ^ 32 - 1) :
    ∃ tag chunk, Marshal (.string s) = .ok (tag :: (Chunk.bytes chunk ++ s))
      ∧ tag = (if s.length ≤ 255 then 0xC4 else if s.length ≤ 65535 then 0xC5 else 0xC6) := by
  rw [marshal_string, hv]
  have h6 : s.length ≤ 4294967295 := by omega
  by_cases h1 : s.length ≤ 255
  · exact ⟨0xC4, .u8 (s.length % 2 ^ 8), by simp [stringTag, Len8, h1, Bin8], by simp [h1]⟩
  · by_cases h2 : s.length ≤ 65535
    · exact ⟨0xC5, .u16 (s.length % 2 ^ 16), by simp [stringTag, Len8, Len16, h1, h2, Bin16],
        by simp [h1, h2]⟩
    · exact ⟨0xC6, .u32 (s.length % 2 ^ 32),
        by simp [stringTag, Len8, Len16, Len32, h1, h2, h6, Bin32], by simp [h1, h2]⟩

/-- C6: a string of `2^32` bytes `0xFF` is not valid UTF-8, and its encoding starts with the
byte `0x00`, not with a Bytes tag: the switch of the invalid-UTF-8 branch has no case for a
count above `Len32` and no `default`, so `tag` keeps its zero value and no length is written;
`encode` returns no error. -/
theorem C6_oversize_invalid_utf8_tag_zero :
    validString (List.replicate 4294967296 0xFF) = false
      ∧ Marshal (.string (List.replicate 4294967296 0xFF))
          = .ok (0x00 :: List.replicate 4294967296 0xFF) := by
  have hv : validString (List.replicate 4294967296 0xFF) = false := by
    rw [show List.replicate 4294967296 0xFF = 0xFF :: List.replicate 4294967295 0xFF from
      List.replicate_succ 0xFF 4294967295]
    exact validString_cons_high _ _ (by decide)
  refine ⟨hv, ?_⟩
  have ht : stringTag false 4294967296 = some (0, .none) := by decide
  rw [marshal_string, hv, List.length_replicate, ht]
  generalize List.replicate 4294967296 0xFF = l
  simp only [Chunk.bytes, List.nil_append]

/-! ## The encoder only appends -/

theorem encode_frame (v : Value) (buf : List Nat) :
    encode v buf = (encode v []).map (buf ++ ·) := by
  cases v <;> simp only [encode, Res.map, List.nil_append, List.append_assoc]
  case string s =>
    cases stringTag (validString s) s.length with
    | none => rfl
    | some tc => simp [Res.map]
  case bool b => cases b <;> simp [Res.map]

mutual
theorem marshal_frame : ∀ (v : Value) (addr : Bool) (buf : List Nat) (compact : Bool),
    marshal v addr buf compact = (marshal v addr [] compact).map (buf ++ ·)
  | .struct fs, addr, buf, compact => by
    simp only [marshal]
    cases lengthTag MapFix Map16 Map32 fs.length with
    | none => rfl
    | some tc =>
      simp only
      rw [marshalFields_frame fs addr (buf ++ [tc.1] ++ tc.2.bytes) compact,
        marshalFields_frame fs addr ([] ++ [tc.1] ++ tc.2.bytes) compact]
      cases marshalFields fs addr [] compact <;> simp [Res.map]
  | .map none, _, buf, _ => by simp [marshal, Res.map]
  | .map (some es), _, buf, compact => by
    simp only [marshal]
    cases lengthTag MapFix Map16 Map32 es.length with
    | none => rfl
    | some tc =>
      simp only
      rw [marshalEntries_frame es (buf ++ [tc.1] ++ tc.2.bytes) compact,
        marshalEntries_frame es ([] ++ [tc.1] ++ tc.2.bytes) compact]
      cases marshalEntries es [] compact <;> simp [Res.map]
  | .slice none, _, buf, _ => by simp [marshal, Res.map]
  | .slice (some xs), _, buf, compact => by
    simp only [marshal]
    cases lengthTag SliceFix Slice16 Slice32 xs.length with
    | none => rfl
    | some tc =>
      simp only
      rw [marshalElems_frame xs (buf ++ [tc.1] ++ tc.2.bytes) compact,
        marshalElems_frame xs ([] ++ [tc.1] ++ tc.2.bytes) compact]
      cases marshalElems xs [] compact <;> simp [Res.map]
  | .ptr none, _, buf, _ => by simp [marshal, Res.map]
  | .ptr (some x), _, buf, compact => by
    simp only [marshal]; exact marshal_frame x true buf compact
  | .iface none, _, buf, _ => by simp [marshal, Res.map]
  | .iface (some x), _, buf, compact => by
    simp only [marshal]; exact marshal_frame x false buf compact
  | .bool b, _, buf, _ => by simp only [marshal]; exact encode_frame _ _
  | .int8 i, _, buf, _ => by simp only [marshal]; exact encode_frame _ _
  | .int16 i, _, buf, _ => by simp only [marshal]; exact encode_frame _ _
  | .int32 i, _, buf, _ => by simp only [marshal]; exact encode_frame _ _
  | .int64 i, _, buf, _ => by simp only [marshal]; exact encode_frame _ _
  | .int i, _, buf, _ => by simp only [marshal]; exact encode_frame _ _
  | .uint8 u, _, buf, _ => by simp only [marshal]; exact encode_frame _ _
  | .uint16 u, _, buf, _ => by simp only [marshal]; exact encode_frame _ _
  | .uint32 u, _, buf, _ => by simp only [marshal]; exact encode_frame _ _
  | .uint64 u, _, buf, _ => by simp only [marshal]; exact encode_frame _ _
  | .uint u, _, buf, _ => by simp only [marshal]; exact encode_frame _ _
  | .float32 x, _, buf, _ => by simp only [marshal]; exact encode_frame _ _
  | .float64 x, _, buf, _ => by simp only [marshal]; exact encode_frame _ _
  | .string s, _, buf, _ => by simp only [marshal]; exact encode_frame _ _
  | .other kind, _, buf, _ => by simp only [marshal]; exact encode_frame _ _
theorem marshalFields_frame : ∀ (fs : List (Field × Value)) (addr : Bool) (buf : List Nat)
    (compact : Bool),
    marshalFields fs addr buf compact = (marshalFields fs addr [] compact).map (buf ++ ·)
  | [], _, buf, _ => by simp [marshalFields, Res.map]
  | (f, v) :: rest, addr, buf, compact => by
    simp only [marshalFields]
    by_cases hs : canSet addr f = true
    · simp only [hs, Bool.not_true, Bool.false_eq_true, if_false]
      cases compact
      · simp only [Bool.not_false, if_true]
        rw [encode_frame _ buf]
        cases hk : encode (.string (f.lower)) [] with
        | ok key =>
          simp only [Res.map]
          rw [marshal_frame v addr (buf ++ key) false, marshal_frame v addr key false]
          cases hv : marshal v addr [] false with
          | ok val =>
            simp only [Res.map]
            rw [marshalFields_frame rest addr (buf ++ key ++ val) false,
              marshalFields_frame rest addr (key ++ val) false]
            cases marshalFields rest addr [] false <;> simp [Res.map]
          | fail e => rfl
          | panic p => rfl
        | fail e => rfl
        | panic p => rfl
      · simp only [Bool.not_true, Bool.false_eq_true, if_false]
        rw [marshal_frame v addr buf true]
        cases hv : marshal v addr [] true with
        | ok val =>
          simp only [Res.map]
          rw [marshalFields_frame rest addr (buf ++ val) true,
            marshalFields_frame rest addr val true]
          cases marshalFields rest addr [] true <;> simp [Res.map]
        | fail e => rfl
        | panic p => rfl
    · simp only [hs, Bool.not_false, if_true]
      exact marshalFields_frame rest addr buf compact
theorem marshalEntries_frame : ∀ (es : List (Value × Value)) (buf : List Nat) (compact : Bool),
    marshalEntries es buf compact = (marshalEntries es [] compact).map (buf ++ ·)
  | [], buf, _ => by simp [marshalEntries, Res.map]
  | (k, v) :: rest, buf, compact => by
    simp only [marshalEntries]
    rw [marshal_frame k false buf compact]
    cases hk : marshal k false [] compact with
    | ok key =>
      simp only [Res.map]
      rw [marshal_frame v false (buf ++ key) compact, marshal_frame v false key compact]
      cases hv : marshal v false [] compact with
      | ok val =>
        simp only [Res.map]
        rw [marshalEntries_frame rest (buf ++ key ++ val) compact,
          marshalEntries_frame rest (key ++ val) compact]
        cases marshalEntries rest [] compact <;> simp [Res.map]
      | fail e => rfl
      | panic p => rfl
    | fail e => rfl
    | panic p => rfl
theorem marshalElems_frame : ∀ (xs : List Value) (buf : List Nat) (compact : Bool),
    marshalElems xs buf compact = (marshalElems xs [] compact).map (buf ++ ·)
  | [], buf, _ => by simp [marshalElems, Res.map]
  | v :: rest, buf, compact => by
    simp only [marshalElems]
    rw [marshal_frame v true buf compact]
    cases hv : marshal v true [] compact with
    | ok val =>
      simp only [Res.map]
      rw [marshalElems_frame rest (buf ++ val) compact, marshalElems_frame rest val compact]
      cases marshalElems rest [] compact <;> simp [Res.map]
    | fail e => rfl
    | panic p => rfl
end

/-! ## Record layout -/

theorem assocHeader_of_lengthTag (n : Nat) :
    (n ≤ 2 ^ 32 - 1 → ∃ tag chunk, lengthTag MapFix Map16 Map32 n = some (tag, chunk)
        ∧ tag :: Chunk.bytes chunk = assocHeader n)
      ∧ (¬ n ≤ 2 ^ 32 - 1 → lengthTag MapFix Map16 Map32 n = none) := by
  constructor
  · intro hn
    by_cases h1 : n ≤ 15
    · refine ⟨(0x80 ||| n) % 256, .none, by simp [lengthTag, Len4, MapFix, h1], ?_⟩
      have hb : (0x80 ||| n) % 256 = 0x80 ||| n := by
        interval_cases n <;> rfl
      simp [assocHeader, h1, hb, Chunk.bytes]
    · by_cases h2 : n ≤ 65535
      · refine ⟨0xDE, .u16 (n % 2 ^ 16), by simp [lengthTag, Len4, Len16, Map16, h1, h2], ?_⟩
        simp [assocHeader, h1, h2, Chunk.bytes, Nat.shiftRight_eq_div_pow]
        omega
      · have h3 : n ≤ 4294967295 := by omega
        refine ⟨0xDF, .u32 (n % 2 ^ 32),
          by simp [lengthTag, Len4, Len16, Len32, Map32, h1, h2, h3], ?_⟩
        simp [assocHeader, h1, h2, Chunk.bytes, Nat.shiftRight_eq_div_pow]
        omega
  · intro hn
    have h1 : ¬ n ≤ 15 := by omega
    have h2 : ¬ n ≤ 65535 := by omega
    have h3 : ¬ n ≤ 4294967295 := by omega
    simp [lengthTag, Len4, Len16, Len32, h1, h2, h3]

/-- One step of the field loop of `marshalStruct`, on an empty buffer. -/
theorem marshalFields_cons_ok (f : Field) (v : Value) (rest : List (Field × Value))
    (addr compact : Bool) (body : List Nat) :
    marshalFields ((f, v) :: rest) addr [] compact = .ok body ↔
      if canSet addr f = true then
        ∃ key val tail, (if compact then key = []
              else encode (.string (f.lower)) [] = .ok key)
          ∧ marshal v addr [] compact = .ok val
          ∧ marshalFields rest addr [] compact = .ok tail
          ∧ body = key ++ val ++ tail
      else marshalFields rest addr [] compact = .ok body := by
  simp only [marshalFields]
  by_cases hs : canSet addr f = true
  · simp only [hs, Bool.not_true, Bool.false_eq_true, if_false, if_true]
    cases compact
    · simp only [Bool.not_false, if_true, Bool.false_eq_true, if_false]
      cases hk : encode (.string (f.lower)) [] with
      | ok key =>
        simp only
        rw [marshal_frame v addr key false]
        cases hv : marshal v addr [] false with
        | ok val =>
          simp only [Res.map]
          rw [marshalFields_frame rest addr (key ++ val) false]
          cases ht : marshalFields rest addr [] false with
          | ok tail =>
            simp only [Res.map, Res.ok.injEq]
            constructor
            · intro h; exact ⟨key, val, tail, rfl, rfl, rfl, h.symm⟩
            · rintro ⟨key1, val1, tail1, h1, h2, h3, h4⟩
              subst h1 h2 h3; exact h4.symm
          | fail e => simp [Res.map]
          | panic p => simp [Res.map]
        | fail e => simp [Res.map]
        | panic p => simp [Res.map]
      | fail e => simp
      | panic p => simp
    · simp only [Bool.not_true, Bool.false_eq_true, if_false, if_true]
      cases hv : marshal v addr [] true with
      | ok val =>
        simp only
        rw [marshalFields_frame rest addr val true]
        cases ht : marshalFields rest addr [] true with
        | ok tail =>
          simp only [Res.map, Res.ok.injEq]
          constructor
          · intro h; exact ⟨[], val, tail, rfl, rfl, rfl, by simpa using h.symm⟩
          · rintro ⟨key1, val1, tail1, h1, h2, h3, h4⟩
            subst h1 h2 h3; simpa using h4.symm
        | fail e => simp [Res.map]
        | panic p => simp [Res.map]
      | fail e => simp
      | panic p => simp
  · simp only [hs, Bool.not_false, if_true, Bool.false_eq_true, if_false]

/-- The field loop of `marshalStruct` writes one entry per settable field, in order. -/
theorem marshalFields_ok_iff (fs : List (Field × Value)) (addr compact : Bool)
    (body : List Nat) :
    marshalFields fs addr [] compact = .ok body ↔
      ∃ entries : List (List Nat),
        List.Forall₂
          (fun (fv : Field × Value) (e : List Nat) => ∃ key val, e = key ++ val
            ∧ (if compact then key = [] else encode (.string (fv.1.lower)) [] = .ok key)
            ∧ marshal fv.2 addr [] compact = .ok val)
          (fs.filter (fun fv => canSet addr fv.1)) entries
        ∧ body = entries.flatten := by
  induction fs generalizing body with
  | nil =>
    simp only [marshalFields, List.filter_nil, List.forall₂_nil_left_iff, Res.ok.injEq]
    constructor
    · intro h; exact ⟨[], rfl, by simp [h.symm]⟩
    · rintro ⟨entries, rfl, h⟩; simp [h]
  | cons fv rest ih =>
    obtain ⟨f, v⟩ := fv
    rw [marshalFields_cons_ok]
    by_cases hs : canSet addr f = true
    · simp only [hs, if_true, List.filter_cons_of_pos]
      constructor
      · rintro ⟨key, val, tail, hk, hv, ht, rfl⟩
        obtain ⟨entries, hf, rfl⟩ := (ih tail).1 ht
        exact ⟨(key ++ val) :: entries, List.Forall₂.cons ⟨key, val, rfl, hk, hv⟩ hf,
          by simp⟩
      · rintro ⟨entries, hf, rfl⟩
        cases hf with
        | cons h1 h2 =>
          obtain ⟨key, val, rfl, hk, hv⟩ := h1
          exact ⟨key, val, _, hk, hv, (ih _).2 ⟨_, h2, rfl⟩, by simp⟩
    · simp only [hs, Bool.false_eq_true, if_false]
      rw [List.filter_cons_of_neg (by simpa using hs)]
      exact ih body

/-- Counterexample to C7 as stated: the addressable record `{A: true, b: true}` with `b`
unexported has one settable field, yet the header `marshalStruct` writes declares two
entries (`0x82`), so the output is not the layout with the settable-field count. -/
theorem C7_header_counts_all_fields :
    Marshal (.ptr (some (.struct mixedRecord))) = .ok [0x82, 0xA1, 0x61, 0xC3]
      ∧ (mixedRecord.filter (fun fv => canSet true fv.1)).length = 1
      ∧ ¬ recordLayout (mixedRecord.filter (fun fv => canSet true fv.1)).length mixedRecord
            true false [0x82, 0xA1, 0x61, 0xC3] := by
  refine ⟨by decide, by decide, ?_⟩
  rintro ⟨entries, _, h⟩
  have h1 : (mixedRecord.filter (fun fv => canSet true fv.1)).length = 1 := by decide
  rw [h1] at h
  have h2 : assocHeader 1 = [0x81] := by decide
  rw [h2] at h
  simp at h

/-- C7, amended: `marshal` of a record succeeds exactly when it has at most `2^32-1` fields
and every settable field encodes, and then the output is the Assoc header declaring the
number of all fields of the record (settable or not) followed by one entry per settable
field in declaration order: the encoding, as a string, of what `strings.ToLower` returns for
the name of the field (verbose mode only), then the encoding of the field value. -/
theorem C7_record_layout (fs : List (Field × Value)) (addr compact : Bool) (out : List Nat) :
    marshal (.struct fs) addr [] compact = .ok out ↔
      fs.length ≤ 2 ^ 32 - 1 ∧ recordLayout fs.length fs addr compact out := by
  simp only [marshal, recordLayout]
  by_cases hn : fs.length ≤ 2 ^ 32 - 1
  · obtain ⟨tag, chunk, ht, hh⟩ := (assocHeader_of_lengthTag fs.length).1 hn
    simp only [ht, hn, true_and, ← hh]
    rw [marshalFields_frame]
    cases hb : marshalFields fs addr [] compact with
    | ok body =>
      simp only [Res.map, Res.ok.injEq]
      have := (marshalFields_ok_iff fs addr compact body).1 hb
      constructor
      · rintro rfl
        obtain ⟨entries, hf, rfl⟩ := this
        exact ⟨entries, hf, by simp⟩
      · rintro ⟨entries, hf, rfl⟩
        have h2 := (marshalFields_ok_iff fs addr compact entries.flatten).2 ⟨entries, hf, rfl⟩
        rw [hb] at h2
        injection h2 with h2
        simp [h2]
    | fail e =>
      simp only [Res.map]
      constructor
      · intro h; cases h
      · rintro ⟨entries, hf, _⟩
        have h2 := (marshalFields_ok_iff fs addr compact entries.flatten).2 ⟨entries, hf, rfl⟩
        rw [hb] at h2
        cases h2
    | panic p =>
      simp only [Res.map]
      constructor
      · intro h; cases h
      · rintro ⟨entries, hf, _⟩
        have h2 := (marshalFields_ok_iff fs addr compact entries.flatten).2 ⟨entries, hf, rfl⟩
        rw [hb] at h2
        cases h2
  · simp only [(assocHeader_of_lengthTag fs.length).2 hn]
    constructor
    · intro h; cases h
    · rintro ⟨h, _⟩; exact absurd h hn

/-- The key of a field whose name has a letter outside ASCII: for the record
`{Élan: true}` the key is `élan`, the bytes `c3 a9 6c 61 6e` after the tag `a5`. -/
theorem marshal_non_ascii_name :
    Marshal (.ptr (some (.struct
        [(⟨[0xC3, 0x89, 0x6C, 0x61, 0x6E], [0xC3, 0xA9, 0x6C, 0x61, 0x6E], true⟩, .bool true)])))
      = .ok [0x81, 0xA5, 0xC3, 0xA9, 0x6C, 0x61, 0x6E, 0xC3] := by
  decide

/-! ## Round trip of records -/

theorem next_append (s rest : List Nat) : next s.length (s ++ rest) = (s, rest) := by
  simp [next]

/-- A string shorter than 65536 bytes, valid UTF-8 or not, is written as a tag other than
`Nil`, a length prefix and its bytes, and `decode` reads exactly that back. -/
theorem string_codec (s : List Nat) (hl : s.length < 65536) :
    ∃ tag pre, encode (.string s) [] = .ok (tag :: (pre ++ s)) ∧ tag ≠ Nil
      ∧ ∀ rest, decode .string tag (pre ++ s ++ rest) = .ok (.string s, rest) := by
  have hdec : ∀ (tag : Nat) (pre rest : List Nat),
      stringLength tag (pre ++ s ++ rest) = .ok (s.length, s ++ rest) →
      decode .string tag (pre ++ s ++ rest) = .ok (.string s, rest) := by
    intro tag pre rest h
    simp only [decode, h, next_append]
  cases hv : validString s
  · -- not valid UTF-8: Bin8 or Bin16
    by_cases h1 : s.length ≤ 255
    · refine ⟨0xC4, [s.length], ?_, by decide, fun rest => hdec _ _ _ ?_⟩
      · have : s.length % 256 = s.length := by omega
        simp [encode, hv, stringTag, Len8, Bin8, h1, Chunk.bytes, this]
      · simp [stringLength, StringFix, String8, Bin8, readByte]
    · refine ⟨0xC5, (Chunk.u16 s.length).bytes, ?_, by decide, fun rest => hdec _ _ _ ?_⟩
      · have h2 : s.length ≤ 65535 := by omega
        have : s.length % 65536 = s.length := by omega
        simp [encode, hv, stringTag, Len8, Len16, Bin16, h1, h2, this]
      · have hn := next_u16 s.length (s ++ rest)
        have : s.length % 2 ^ 16 = s.length := by omega
        simp only [stringLength, List.append_assoc, hn, beUint16_bytes, this]
        simp [StringFix, String8, Bin8, String16, Bin16]
  · by_cases h0 : s.length ≤ 31
    · refine ⟨0xA0 ||| s.length, [], ?_, ?_, fun rest => hdec _ _ _ ?_⟩
      · have hb : (0xA0 ||| s.length) % 256 = 0xA0 ||| s.length := by
          generalize s.length = n at h0
          interval_cases n <;> rfl
        simp [encode, hv, stringTag, Len5, StringFix, h0, hb, Chunk.bytes]
      · generalize s.length = n at h0
        interval_cases n <;> decide
      · have h5 : (0xA0 ||| s.length) >>> 5 = StringFix >>> 5
            ∧ (0xA0 ||| s.length) &&& 0x1F = s.length := by
          generalize s.length = n at h0
          interval_cases n <;> decide
        simp [stringLength, h5.1, h5.2]
    · by_cases h1 : s.length ≤ 255
      · refine ⟨0xD9, [s.length], ?_, by decide, fun rest => hdec _ _ _ ?_⟩
        · have : s.length % 256 = s.length := by omega
          simp [encode, hv, stringTag, Len5, Len8, String8, h0, h1, Chunk.bytes, this]
        · simp [stringLength, StringFix, String8, Bin8, readByte]
      · refine ⟨0xDA, (Chunk.u16 s.length).bytes, ?_, by decide, fun rest => hdec _ _ _ ?_⟩
        · have h2 : s.length ≤ 65535 := by omega
          have : s.length % 65536 = s.length := by omega
          simp [encode, hv, stringTag, Len5, Len8, Len16, String16, h0, h1, h2, this]
        · have hn := next_u16 s.length (s ++ rest)
          have : s.length % 2 ^ 16 = s.length := by omega
          simp only [stringLength, List.append_assoc, hn, beUint16_bytes, this]
          simp [StringFix, String8, Bin8, String16, Bin16]


theorem int_codec (k : IntKind) (i : Int) (hlo : -(2 : Int) ^ (k.width - 1) ≤ i)
    (hhi : i < (2 : Int) ^ (k.width - 1)) :
    ∃ tag pay, encode (k.value i) [] = .ok (tag :: pay) ∧ tag ≠ Nil
      ∧ ∀ rest, decode k.ty tag (pay ++ rest) = .ok (k.value i, rest) := by
  cases k
  · refine ⟨Int8, (Chunk.u8 (toUint 8 (toInt 8 i))).bytes, rfl, by decide, fun rest => ?_⟩
    have h := toInt_wire 8 (by decide) i hlo hhi
    simp only [decode, IntKind.ty, IntKind.value, Chunk.bytes, readByte, List.cons_append,
      List.nil_append, if_true]
    norm_num at h ⊢
    exact h
  · refine ⟨Int16, (Chunk.u16 (toUint 16 (toInt 16 i))).bytes, rfl, by decide, fun rest => ?_⟩
    have h := toInt_wire 16 (by decide) i hlo hhi
    simp only [decode, IntKind.ty, IntKind.value, next_u16, beUint16_bytes, if_true, h]
  · refine ⟨Int32, (Chunk.u32 (toUint 32 (toInt 32 i))).bytes, rfl, by decide, fun rest => ?_⟩
    have h := toInt_wire 32 (by decide) i hlo hhi
    simp only [decode, IntKind.ty, IntKind.value, next_u32, beUint32_bytes, if_true, h]
  · refine ⟨Int64, (Chunk.u64 (toUint 64 i)).bytes, rfl, by decide, fun rest => ?_⟩
    have h := toInt_toUint 64 (by decide) i hlo hhi
    simp only [decode, IntKind.ty, IntKind.value, next_u64, beUint64_bytes, if_true,
      Nat.mod_eq_of_lt (toUint_lt 64 i), h]
  · refine ⟨Int64, (Chunk.u64 (toUint 64 i)).bytes, rfl, by decide, fun rest => ?_⟩
    have h := toInt_toUint 64 (by decide) i hlo hhi
    simp only [decode, IntKind.ty, IntKind.value, next_u64, beUint64_bytes, if_true,
      Nat.mod_eq_of_lt (toUint_lt 64 i), h]

/-- On a value of scalar kind `marshal` is `encode`. -/
theorem marshal_simple (s : Simple) (addr : Bool) (buf : List Nat) (compact : Bool) :
    marshal s.value addr buf compact = encode s.value buf := by
  cases s with
  | int k i => cases k <;> simp only [Simple.value, IntKind.value, marshal]
  | bool b => simp only [Simple.value, marshal]
  | text t => simp only [Simple.value, marshal]

/-- On a destination of scalar kind `unmarshal` reads one byte and, unless it is `Nil`,
hands it to `decode`. -/
theorem unmarshal_simple (s : Simple) (cur : Value) (b : Nat) (rest : List Nat)
    (compact : Bool) (hb : b ≠ Nil) :
    unmarshal s.ty cur (b :: rest) compact = decode s.ty b rest := by
  cases s with
  | int k i => cases k <;> simp only [Simple.ty, IntKind.ty, unmarshal, readByte, if_neg hb]
  | bool b => simp only [Simple.ty, unmarshal, readByte, if_neg hb]
  | text t => simp only [Simple.ty, unmarshal, readByte, if_neg hb]

/-- A well-formed simple value is written as a tag other than `Nil` and a payload, and
`unmarshal` into a destination of its type reads exactly that back. -/
theorem simple_codec (s : Simple) (hw : s.wf = true) (addr compact : Bool) :
    ∃ e, marshal s.value addr [] compact = .ok e
      ∧ ∀ cur rest c, unmarshal s.ty cur (e ++ rest) c = .ok (s.value, rest) := by
  rw [marshal_simple]
  cases s with
  | int k i =>
    simp only [Simple.wf, Bool.and_eq_true, decide_eq_true_eq] at hw
    obtain ⟨tag, pay, he, ht, hd⟩ := int_codec k i hw.1 hw.2
    refine ⟨tag :: pay, he, fun cur rest c => ?_⟩
    have := unmarshal_simple (.int k i) cur tag (pay ++ rest) c ht
    simp only [Simple.ty] at this
    simp only [Simple.ty, Simple.value, List.cons_append, this, hd]
  | bool b =>
    cases b
    · refine ⟨[False], rfl, fun cur rest c => ?_⟩
      have := unmarshal_simple (.bool false) cur False rest c (by decide)
      simp only [Simple.ty] at this
      simp only [Simple.ty, Simple.value, List.cons_append, List.nil_append, this]
      rfl
    · refine ⟨[True], rfl, fun cur rest c => ?_⟩
      have := unmarshal_simple (.bool true) cur True rest c (by decide)
      simp only [Simple.ty] at this
      simp only [Simple.ty, Simple.value, List.cons_append, List.nil_append, this]
      rfl
  | text t =>
    simp only [Simple.wf, Bool.and_eq_true, decide_eq_true_eq] at hw
    obtain ⟨tag, pre, he, ht, hd⟩ := string_codec t hw.2
    refine ⟨tag :: (pre ++ t), he, fun cur rest c => ?_⟩
    have := unmarshal_simple (.text t) cur tag (pre ++ t ++ rest) c ht
    simp only [Simple.ty] at this
    simp only [Simple.ty, Simple.value, List.cons_append, this, hd]

/-- An Assoc header for `n ≤ 2^32-1` entries starts with a tag other than `Nil`, and the
decoder reads `n` back from it. -/
theorem assoc_header_codec (n : Nat) (hn : n ≤ 2 ^ 32 - 1) :
    ∃ tag chunk, lengthTag MapFix Map16 Map32 n = some (tag, chunk) ∧ tag ≠ Nil
      ∧ ∀ rest, lengthOf MapFix Map16 Map32 tag (Chunk.bytes chunk ++ rest) = .ok (n, rest) := by
  by_cases h1 : n ≤ 15
  · refine ⟨(0x80 ||| n) % 256, .none, by simp [lengthTag, Len4, MapFix, h1], ?_, fun rest => ?_⟩
    · interval_cases n <;> decide
    · have h5 : ((0x80 ||| n) % 256) >>> 4 = MapFix >>> 4 ∧ ((0x80 ||| n) % 256) &&& 0x0F = n := by
        interval_cases n <;> decide
      simp [lengthOf, h5.1, h5.2, Chunk.bytes]
  · by_cases h2 : n ≤ 65535
    · refine ⟨0xDE, .u16 (n % 2 ^ 16), by simp [lengthTag, Len4, Len16, Map16, h1, h2],
        by decide, fun rest => ?_⟩
      have hm : n % 2 ^ 16 % 2 ^ 16 = n := by omega
      simp only [lengthOf, next_u16, beUint16_bytes, hm]
      simp [MapFix, Map16]
    · have h3 : n ≤ 4294967295 := by omega
      refine ⟨0xDF, .u32 (n % 2 ^ 32),
        by simp [lengthTag, Len4, Len16, Len32, Map32, h1, h2, h3], by decide, fun rest => ?_⟩
      have hm : n % 2 ^ 32 % 2 ^ 32 = n := by omega
      simp only [lengthOf, next_u32, beUint32_bytes, hm]
      simp [MapFix, Map16, Map32]


/-- The field loops of `marshalStruct` and `unmarshalStruct` agree on a record whose fields
are all exported and well formed (and, in verbose mode, have lower-cased names shorter than
65536 bytes): what the first writes for an addressable record, the second reads back. -/
theorem fields_codec (r : List (Field × Simple)) (compact : Bool)
    (hf : ∀ fs ∈ r, fs.1.exported = true ∧ fs.2.wf = true)
    (hname : compact = false → ∀ fs ∈ r, (fs.1.lower).length < 65536) :
    ∃ body, marshalFields (r.map (fun fs => (fs.1, fs.2.value))) true [] compact = .ok body
      ∧ ∀ cur rest, unmarshalFields (r.map (fun fs => (fs.1, fs.2.ty))) cur (body ++ rest) compact
          = .ok (r.map (fun fs => (fs.1, fs.2.value)), rest) := by
  induction r with
  | nil => exact ⟨[], rfl, fun cur rest => rfl⟩
  | cons fs r ih =>
    obtain ⟨f, s⟩ := fs
    have hfs := hf (f, s) (List.mem_cons_self _ _)
    obtain ⟨tail, hmt, hut⟩ := ih (fun x hx => hf x (List.mem_cons_of_mem _ hx))
      (fun hc x hx => hname hc x (List.mem_cons_of_mem _ hx))
    obtain ⟨val, hmv, huv⟩ := simple_codec s hfs.2 true compact
    have hcs : canSet true f = true := by simpa [canSet] using hfs.1
    cases compact
    · -- verbose: the key comes first
      obtain ⟨tag, pre, hk, -, hkd⟩ :=
        string_codec (f.lower) (hname rfl (f, s) (List.mem_cons_self _ _))
      refine ⟨(tag :: (pre ++ f.lower)) ++ val ++ tail, ?_, fun cur rest => ?_⟩
      · simp only [List.map_cons]
        rw [marshalFields_cons_ok]
        simp only [hcs, if_true]
        exact ⟨_, val, tail, by simpa using hk, hmv, hmt, rfl⟩
      · simp only [List.map_cons, unmarshalFields, hcs, Bool.not_true, Bool.false_eq_true,
          if_false, Bool.not_false, if_true, List.cons_append, List.append_assoc, readByte]
        have h1 := hkd (val ++ (tail ++ rest))
        simp only [List.append_assoc] at h1
        simp only [h1, huv, hut]
    · refine ⟨val ++ tail, ?_, fun cur rest => ?_⟩
      · simp only [List.map_cons]
        rw [marshalFields_cons_ok]
        simp only [hcs, if_true]
        exact ⟨[], val, tail, rfl, hmv, hmt, rfl⟩
      · simp only [List.map_cons, unmarshalFields, hcs, Bool.not_true, Bool.false_eq_true,
          if_false, List.append_assoc]
        simp only [huv, hut]


theorem marshal_struct_too_many (fs : List (Field × Value)) (addr c : Bool)
    (h : ¬ fs.length ≤ 2 ^ 32 - 1) :
    marshal (.struct fs) addr [] c = .fail .TooManyValuesErr := by
  simp only [marshal, (assocHeader_of_lengthTag fs.length).2 h]

theorem marshal_ptr (x : Value) (addr : Bool) (buf : List Nat) (c : Bool) :
    marshal (.ptr (some x)) addr buf c = marshal x true buf c := by
  simp only [marshal]

theorem hugeRecord_length : hugeRecord.length = 4294967296 := by
  unfold hugeRecord
  rw [List.length_map, List.length_range]

/-- Verbose encoding of an addressable record with one exported boolean field `true` whose
lower-cased name `l` is valid UTF-8 and 65536 bytes long. -/
theorem marshal_long_key (nm l : List Nat) (hv : validString l = true)
    (hlen : l.length = 65536) :
    marshal (.struct [(⟨nm, l, true⟩, .bool true)]) true [] false
      = .ok (0x81 :: 0xDB :: 0 :: 1 :: 0 :: 0 :: (l ++ [0xC3])) := by
  have ht : stringTag true 65536 = some (0xDB, .u32 65536) := by decide
  have hb : (Chunk.u32 65536).bytes = [0, 1, 0, 0] := by decide
  have hlt : lengthTag MapFix Map16 Map32 1 = some (0x81, .none) := by decide
  have hc : canSet true ⟨nm, l, true⟩ = true := rfl
  simp only [marshal, List.length_singleton, hlt, marshalFields, hc, Bool.not_true,
    Bool.not_false, Bool.false_eq_true, if_false, if_true, encode, hv, hlen, ht, hb,
    Chunk.bytes, True]
  simp

/-- Verbose decoding of such an encoding into the one-field record: the key is cut after
one byte and the second byte of the key is taken for the tag of the boolean. -/
theorem unmarshal_long_key (nm l rest : List Nat) (x : Nat) (cur : List (Field × Value)) :
    unmarshal (.struct [(⟨nm, l, true⟩, .bool)]) (.struct cur)
        (0x81 :: 0xDB :: 0 :: 1 :: 0 :: 0 :: x :: 0x61 :: rest) false
      = .ok (.struct [(⟨nm, l, true⟩, .bool false)], rest) := by
  rfl

/-- C8: the verbose round trip fails for a record whose field name is long. The record has
one exported boolean field, `true`, whose name has 65536 bytes (`A` and 65535 letters `a`).
`Marshal` writes the lower-cased name as a `String32` key; the decoder takes the four length
bytes but reads them as a 16-bit number, 1, cuts the key after one byte and takes the
second byte of the key for the tag of the boolean: `Unmarshal` succeeds with the field
`false` and leaves 65534 bytes of the key and the value unread. -/
theorem C8_long_field_name_breaks_round_trip :
    (∀ fs ∈ longNameRecord, fs.1.exported = true ∧ fs.2.wf = true)
      ∧ Marshal (.ptr (some (recordValue longNameRecord)))
          = .ok (0x81 :: 0xDB :: 0 :: 1 :: 0 :: 0 :: (List.replicate 65536 0x61 ++ [0xC3]))
      ∧ Unmarshal (0x81 :: 0xDB :: 0 :: 1 :: 0 :: 0 :: (List.replicate 65536 0x61 ++ [0xC3]))
            (recordType longNameRecord) (zero (recordType longNameRecord))
          = .ok (.struct [(⟨0x41 :: List.replicate 65535 0x61, List.replicate 65536 0x61,
                true⟩, .bool false)],
              List.replicate 65534 0x61 ++ [0xC3]) := by
  refine ⟨?_, ?_, ?_⟩
  · intro fs h
    simp only [longNameRecord, List.mem_singleton] at h
    subst h
    exact ⟨rfl, rfl⟩
  · unfold Marshal runMarshal recordValue longNameRecord
    rw [valueOf_ptr, marshal_ptr]
    simp only [List.map_cons, List.map_nil, Simple.value]
    exact marshal_long_key _ _ (validString_replicate_ascii _) (List.length_replicate _ _)
  · unfold Unmarshal recordType longNameRecord
    simp only [List.map_cons, List.map_nil, Simple.ty, zero, zeroFields]
    rw [show List.replicate 65536 0x61 = 0x61 :: 0x61 :: List.replicate 65534 0x61 from
      (List.replicate_succ 0x61 65535).trans (congrArg _ (List.replicate_succ 0x61 65534))]
    exact unmarshal_long_key _ _ _ _ _

/-- A record with `2^32` fields is refused in both modes with `TooManyValuesErr`. -/
theorem huge_record_refused :
    (∀ fs ∈ hugeRecord, fs.1.exported = true ∧ fs.2.wf = true)
      ∧ Marshal (.ptr (some (recordValue hugeRecord))) = .fail .TooManyValuesErr
      ∧ MarshalCompact (.ptr (some (recordValue hugeRecord))) = .fail .TooManyValuesErr := by
  refine ⟨?_, ?_, ?_⟩
  · intro fs h
    simp only [hugeRecord, List.mem_map] at h
    obtain ⟨i, _, rfl⟩ := h
    exact ⟨rfl, rfl⟩
  · unfold Marshal runMarshal recordValue
    rw [valueOf_ptr, marshal_ptr, marshal_struct_too_many]
    rw [List.length_map, hugeRecord_length]
    decide
  · unfold MarshalCompact runMarshal recordValue
    rw [valueOf_ptr, marshal_ptr, marshal_struct_too_many]
    rw [List.length_map, hugeRecord_length]
    decide

/-- What `marshal` writes for a pointer to a well-formed record, `unmarshal` reads back into
a record destination of the same type, whatever follows in the buffer. -/
theorem record_codec (r : List (Field × Simple)) (c : Bool) (hn : r.length ≤ 2 ^ 32 - 1)
    (hf : ∀ fs ∈ r, fs.1.exported = true ∧ fs.2.wf = true)
    (hname : c = false → ∀ fs ∈ r, (fs.1.lower).length < 65536) :
    ∃ bytes, marshal (.ptr (some (recordValue r))) false [] c = .ok bytes
      ∧ ∀ cur rest, unmarshal (recordType r) cur (bytes ++ rest) c
          = .ok (recordValue r, rest) := by
  obtain ⟨tag, chunk, ht, hnil, hlen⟩ := assoc_header_codec r.length hn
  obtain ⟨body, hm, hu⟩ := fields_codec r c hf hname
  refine ⟨tag :: (chunk.bytes ++ body), ?_, fun cur rest => ?_⟩
  · rw [marshal_ptr]
    simp only [recordValue, marshal, List.length_map, ht]
    rw [marshalFields_frame, hm]
    simp [Res.map]
  · have e : (tag :: (chunk.bytes ++ body)) ++ rest = tag :: (chunk.bytes ++ (body ++ rest)) := by
      simp
    rw [e]
    simp only [recordType, recordValue, unmarshal, readByte, if_neg hnil, hlen,
      List.length_map, gt_iff_lt, lt_irrefl, if_false, hu]

/-- Round trip of records in both modes: for every record with at most `2^32-1` fields, all
of them exported and holding an in-range signed integer, a boolean or a valid UTF-8 text
shorter than 65536 bytes, `UnmarshalCompact(MarshalCompact(&r))` into a zero-valued record
of the same type succeeds, yields `r` field by field and leaves no byte unread; and when
moreover every lower-cased field name is shorter than 65536 bytes, so does
`Unmarshal(Marshal(&r))`. -/
theorem record_round_trip (r : List (Field × Simple)) (hn : r.length ≤ 2 ^ 32 - 1)
    (hf : ∀ fs ∈ r, fs.1.exported = true ∧ fs.2.wf = true) :
    (∃ bytes, MarshalCompact (.ptr (some (recordValue r))) = .ok bytes
        ∧ UnmarshalCompact bytes (recordType r) (zero (recordType r))
            = .ok (recordValue r, []))
      ∧ ((∀ fs ∈ r, (fs.1.lower).length < 65536) →
          ∃ bytes, Marshal (.ptr (some (recordValue r))) = .ok bytes
            ∧ Unmarshal bytes (recordType r) (zero (recordType r))
                = .ok (recordValue r, [])) := by
  constructor
  · obtain ⟨bytes, hm, hu⟩ := record_codec r true hn hf (fun h => by cases h)
    refine ⟨bytes, hm, ?_⟩
    have := hu (zero (recordType r)) []
    rwa [List.append_nil] at this
  · intro hname
    obtain ⟨bytes, hm, hu⟩ := record_codec r false hn hf (fun _ => hname)
    refine ⟨bytes, hm, ?_⟩
    have := hu (zero (recordType r)) []
    rwa [List.append_nil] at this

/-- The round trip of the record `{Compact: true, Level: -2, Name: "pack"}`. -/
theorem record_round_trip_sample :
    (∃ bytes, MarshalCompact (.ptr (some (recordValue sampleRecord))) = .ok bytes
        ∧ UnmarshalCompact bytes (recordType sampleRecord) (zero (recordType sampleRecord))
            = .ok (recordValue sampleRecord, []))
      ∧ ((∀ fs ∈ sampleRecord, (fs.1.lower).length < 65536) →
          ∃ bytes, Marshal (.ptr (some (recordValue sampleRecord))) = .ok bytes
            ∧ Unmarshal bytes (recordType sampleRecord) (zero (recordType sampleRecord))
                = .ok (recordValue sampleRecord, [])) :=
  record_round_trip sampleRecord (by decide) (by decide)

/-! ## Tags and short buffers -/

/-- A destination of integer or float kind rejects every tag but its own (and `Nil`) with
`InvalidTagErr`, carrying the tag. -/
theorem unmarshal_tag_mismatch (t : Ty) (tag : Nat) (ht : numericTag t = some tag) (b : Nat)
    (hnil : b ≠ Nil) (hne : b ≠ tag) (cur : Value) (rest : List Nat) (c : Bool) :
    unmarshal t cur (b :: rest) c = .fail (.InvalidTagErr b) := by
  cases t <;> simp only [numericTag, Option.some.injEq, reduceCtorEq] at ht <;> subst ht <;>
    simp only [unmarshal, readByte, decode, if_neg hnil, if_neg hne, ne_eq, hne,
      not_false_eq_true, if_true, if_false]

/-- C9: a boolean destination does not reject a foreign tag. The `Bool` case of `decode`
compares the tag with `True` only and stores `false` for every other byte: the `Int8` tag
`0xD0` decodes without error, where every other scalar kind returns `InvalidTagErr`. -/
theorem C9_bool_accepts_any_tag (cur : Value) (rest : List Nat) :
    Unmarshal (0xD0 :: rest) .bool cur = .ok (.bool false, rest)
      ∧ Unmarshal (0xD0 :: rest) .int16 cur = .fail (.InvalidTagErr 0xD0) :=
  ⟨rfl, rfl⟩

/-- C10: a short buffer is not always reported. A Text header announcing 5 bytes followed
by 2 bytes, and a Bytes header announcing 5 bytes followed by 1, decode successfully into
the shortened text (`buf.Next` returns what is left); a 16-bit integer tag followed by one
byte and a 32-bit float tag followed by two bytes panic in `binary.BigEndian`; only the
paths that use `ReadByte` return `io.EOF`. -/
theorem C10_short_buffer_not_reported :
    Unmarshal [0xA5, 0x61, 0x62] .string (.string []) = .ok (.string [0x61, 0x62], [])
      ∧ Unmarshal [0xC4, 0x05, 0x61] .string (.string []) = .ok (.string [0x61], [])
      ∧ Unmarshal [0xD1, 0x01] .int16 (.int16 0) = .panic .indexOutOfRange
      ∧ Unmarshal [0xCA, 0x01, 0x02] .float32 (.float32 0) = .panic .indexOutOfRange
      ∧ Unmarshal [0xD0] .int8 (.int8 0) = .fail .eof :=
  ⟨rfl, rfl, rfl, rfl, rfl⟩

/-! ## Absence and the dynamically-typed slot -/

/-- After the tag `Nil` the decoder returns at once, whatever the destination. -/
theorem unmarshal_nil (t : Ty) (cur : Value) (rest : List Nat) (c : Bool) :
    unmarshal t cur (0xC0 :: rest) c = .ok (cur, rest) := by
  cases t <;> simp [unmarshal, readByte, Nil]

/-- At the top level a nil interface is no slot: `reflect.ValueOf(nil)` is the zero
`reflect.Value`, whose kind `invalid` has no encode rule. -/
theorem marshal_nil_argument :
    Marshal (.iface none) = .fail (.UnsupportedTypeErr "invalid")
      ∧ MarshalCompact (.iface none) = .fail (.UnsupportedTypeErr "invalid") :=
  ⟨rfl, rfl⟩

/-- C19: absence. A nil map, a nil slice and a nil pointer are each encoded, in both modes,
as the one byte `0xC0`; so is an empty interface slot wherever the encoder meets one, be it
the target of a pointer, an element of a slice, a value of a map or a field of a record; and
decoding an input that begins with `0xC0` into a destination of any shape, in both modes,
succeeds, leaves the destination as it was and returns everything after that byte as
remainder. -/
theorem C19_absence :
    Marshal (.map none) = .ok [0xC0] ∧ Marshal (.slice none) = .ok [0xC0]
      ∧ Marshal (.ptr none) = .ok [0xC0]
      ∧ MarshalCompact (.map none) = .ok [0xC0] ∧ MarshalCompact (.slice none) = .ok [0xC0]
      ∧ MarshalCompact (.ptr none) = .ok [0xC0]
      ∧ (∀ (addr : Bool) (buf : List Nat) (c : Bool),
          marshal (.iface none) addr buf c = .ok (buf ++ [0xC0]))
      ∧ Marshal (.ptr (some (.iface none))) = .ok [0xC0]
      ∧ MarshalCompact (.ptr (some (.iface none))) = .ok [0xC0]
      ∧ Marshal (.slice (some [.iface none])) = .ok [0x91, 0xC0]
      ∧ MarshalCompact (.slice (some [.iface none])) = .ok [0x91, 0xC0]
      ∧ Marshal (.map (some [(.string (asciiBytes "k"), .iface none)]))
          = .ok [0x81, 0xA1, 0x6B, 0xC0]
      ∧ MarshalCompact (.map (some [(.string (asciiBytes "k"), .iface none)]))
          = .ok [0x81, 0xA1, 0x6B, 0xC0]
      ∧ Marshal (.ptr (some (.struct [(⟨asciiBytes "S", asciiBytes "s", true⟩, .iface none)])))
          = .ok [0x81, 0xA1, 0x73, 0xC0]
      ∧ MarshalCompact
          (.ptr (some (.struct [(⟨asciiBytes "S", asciiBytes "s", true⟩, .iface none)])))
          = .ok [0x81, 0xC0]
      ∧ (∀ (t : Ty) (cur : Value) (rest : List Nat),
          Unmarshal (0xC0 :: rest) t cur = .ok (cur, rest)
            ∧ UnmarshalCompact (0xC0 :: rest) t cur = .ok (cur, rest)) :=
  ⟨rfl, rfl, rfl, rfl, rfl, rfl, fun _ _ _ => by simp [marshal, Nil],
    rfl, rfl, rfl, rfl, rfl, rfl, rfl, rfl,
    fun t cur rest => ⟨unmarshal_nil t cur rest false, unmarshal_nil t cur rest true⟩⟩

/-- The type switch of `unmarshalInterface` is the table of the specification. -/
theorem slotType_eq_ifaceType (b : Nat) : slotType b = ifaceType b := by
  have h5 : (StringFix >>> 5 = b >>> 5) ↔ (0xA0 ≤ b ∧ b ≤ 0xBF) := by
    simp only [StringFix, Nat.shiftRight_eq_div_pow]
    omega
  simp only [slotType, ifaceType, h5, Int8, Int16, Int32, Int64, Uint8, Uint16, Uint32, Uint64,
    Float32, Float64, String8, String16, String32, Bin8, Bin16, Bin32, True, False]

theorem ite_some_elim {α : Type} {c : Prop} [Decidable c] {a t : α} {o : Option α}
    (h : (if c then some a else o) = some t) : t = a ∨ o = some t := by
  by_cases hc : c
  · rw [if_pos hc] at h
    exact Or.inl (Option.some.inj h).symm
  · rw [if_neg hc] at h
    exact Or.inr h

/-- The types the slot table yields are of scalar kind, for which `unmarshal` is one
`ReadByte`, the `Nil` test, and `decode`. -/
theorem unmarshal_of_ifaceType (b : Nat) (t : Ty) (ht : ifaceType b = some t) (cur : Value)
    (buf : List Nat) (c : Bool) : unmarshal t cur buf c = unmarshalScalar t cur buf := by
  have hcases : t = .int8 ∨ t = .int16 ∨ t = .int32 ∨ t = .int64 ∨ t = .uint8 ∨ t = .uint16
      ∨ t = .uint32 ∨ t = .uint64 ∨ t = .float32 ∨ t = .float64 ∨ t = .string ∨ t = .bool := by
    unfold ifaceType at ht
    rcases ite_some_elim ht with h | ht
    · exact Or.inl h
    rcases ite_some_elim ht with h | ht
    · exact Or.inr (Or.inl h)
    rcases ite_some_elim ht with h | ht
    · exact Or.inr (Or.inr (Or.inl h))
    rcases ite_some_elim ht with h | ht
    · exact Or.inr (Or.inr (Or.inr (Or.inl h)))
    rcases ite_some_elim ht with h | ht
    · exact Or.inr (Or.inr (Or.inr (Or.inr (Or.inl h))))
    rcases ite_some_elim ht with h | ht
    · exact Or.inr (Or.inr (Or.inr (Or.inr (Or.inr (Or.inl h)))))
    rcases ite_some_elim ht with h | ht
    · exact Or.inr (Or.inr (Or.inr (Or.inr (Or.inr (Or.inr (Or.inl h))))))
    rcases ite_some_elim ht with h | ht
    · exact Or.inr (Or.inr (Or.inr (Or.inr (Or.inr (Or.inr (Or.inr (Or.inl h)))))))
    rcases ite_some_elim ht with h | ht
    · exact Or.inr (Or.inr (Or.inr (Or.inr (Or.inr (Or.inr (Or.inr (Or.inr (Or.inl h))))))))
    rcases ite_some_elim ht with h | ht
    · exact Or.inr (Or.inr (Or.inr (Or.inr (Or.inr (Or.inr (Or.inr (Or.inr (Or.inr
        (Or.inl h)))))))))
    rcases ite_some_elim ht with h | ht
    · exact Or.inr (Or.inr (Or.inr (Or.inr (Or.inr (Or.inr (Or.inr (Or.inr (Or.inr
        (Or.inr (Or.inl h))))))))))
    rcases ite_some_elim ht with h | ht
    · exact Or.inr (Or.inr (Or.inr (Or.inr (Or.inr (Or.inr (Or.inr (Or.inr (Or.inr
        (Or.inr (Or.inl h))))))))))
    rcases ite_some_elim ht with h | ht
    · exact Or.inr (Or.inr (Or.inr (Or.inr (Or.inr (Or.inr (Or.inr (Or.inr (Or.inr
        (Or.inr (Or.inr h))))))))))
    · cases ht
  have key : ∀ t', (t' = Ty.int8 ∨ t' = .int16 ∨ t' = .int32 ∨ t' = .int64 ∨ t' = .uint8
      ∨ t' = .uint16 ∨ t' = .uint32 ∨ t' = .uint64 ∨ t' = .float32 ∨ t' = .float64
      ∨ t' = .string ∨ t' = .bool) → unmarshal t' cur buf c = unmarshalScalar t' cur buf := by
    intro t' h
    rcases h with h | h | h | h | h | h | h | h | h | h | h | h <;> subst h <;>
      cases buf <;> simp only [unmarshal, unmarshalScalar, readByte]
  exact key t hcases

/-- A tag with an entry in the slot table is not `Nil`. -/
theorem ifaceType_ne_nil (b : Nat) (t : Ty) (ht : ifaceType b = some t) : b ≠ Nil := by
  rintro rfl
  simp [ifaceType, Nil, Int8, Int16, Int32, Int64, Uint8, Uint16, Uint32, Uint64, Float32,
    Float64, StringFix, String8, String16, String32, Bin8, Bin16, Bin32, True, False] at ht

/-- C18: decoding into a dynamically-typed slot agrees with typed decoding. When the first
byte `b` of the input has the type `t` in the tag table of the specification, decoding into
a slot succeeds, fails or panics exactly as decoding the same input into a destination of
type `t`, leaves the same bytes unread, and on success the slot holds the value the typed
destination holds. -/
theorem C18_slot_agrees_with_typed (b : Nat) (t : Ty) (ht : slotType b = some t)
    (rest : List Nat) (slot cur : Value) :
    Unmarshal (b :: rest) .iface slot
      = (Unmarshal (b :: rest) t cur).map (fun p => (Value.iface (some p.1), p.2)) := by
  rw [slotType_eq_ifaceType] at ht
  have hnil := ifaceType_ne_nil b t ht
  have h1 : unmarshal .iface slot (b :: rest) false = unmarshalInterface slot b (b :: rest) := by
    simp only [unmarshal, readByte, if_neg hnil]
  have h2 : ∀ cur', unmarshalScalar t cur' (b :: rest) = decode t b rest := by
    intro cur'
    simp only [unmarshalScalar, readByte, if_neg hnil]
  simp only [Unmarshal, h1, unmarshalInterface, ht, unmarshal_of_ifaceType b t ht, h2]
  cases decode t b rest <;> rfl

/-- Witness of C18: the tag `0xD1` maps to the 16-bit signed type. -/
theorem C18_slot_agrees_with_typed_witness :
    Unmarshal (0xD1 :: [0xFF, 0xFE, 7]) .iface (.iface none)
      = (Unmarshal (0xD1 :: [0xFF, 0xFE, 7]) .int16 (.int16 0)).map
          (fun p => (Value.iface (some p.1), p.2)) :=
  C18_slot_agrees_with_typed 0xD1 .int16 rfl [0xFF, 0xFE, 7] (.iface none) (.int16 0)

/-- C20: an aggregate tag in front of a dynamically-typed slot consumes nothing. When the
first byte `b` of the input is not `Nil` and has no type in the tag table of the slot,
decoding into the slot succeeds, leaves the slot as it was and returns the whole input, `b`
included, as remainder; inside a record (compact mode, the slot in an exported field) the
rest of the field loop therefore starts at that same byte `b`. -/
theorem C20_slot_aggregate_consumes_nothing (b : Nat) (hnil : b ≠ Nil)
    (hs : slotType b = none) (rest : List Nat) (slot : Value) :
    Unmarshal (b :: rest) .iface slot = .ok (slot, b :: rest)
      ∧ UnmarshalCompact (b :: rest) .iface slot = .ok (slot, b :: rest)
      ∧ ∀ (f : Field) (fs : List (Field × Ty)) (cur : List (Field × Value)),
          f.exported = true →
          unmarshalFields ((f, .iface) :: fs) cur (b :: rest) true
            = (unmarshalFields fs cur.tail (b :: rest) true).map
                (fun p => ((f, (cur.head?.map Prod.snd).getD (zero .iface)) :: p.1, p.2)) := by
  rw [slotType_eq_ifaceType] at hs
  have h1 : ∀ (v : Value) (c : Bool), unmarshal .iface v (b :: rest) c = .ok (v, b :: rest) := by
    intro v c
    simp only [unmarshal, readByte, if_neg hnil, unmarshalInterface, hs]
  refine ⟨h1 slot false, h1 slot true, fun f fs cur hf => ?_⟩
  have hc : canSet true f = true := by simpa [canSet] using hf
  simp only [unmarshalFields, hc, Bool.not_true, Bool.false_eq_true, if_false, h1]
  cases unmarshalFields fs cur.tail (b :: rest) true with
  | ok p => rfl
  | fail e => rfl
  | panic p => rfl

/-- Witness of C20: the Sequence tag `0x92` in front of a slot. -/
theorem C20_slot_aggregate_consumes_nothing_witness :
    Unmarshal (0x92 :: [0xD0, 1, 0xD0, 2]) .iface (.iface none)
        = .ok (.iface none, 0x92 :: [0xD0, 1, 0xD0, 2])
      ∧ UnmarshalCompact (0x92 :: [0xD0, 1, 0xD0, 2]) .iface (.iface none)
        = .ok (.iface none, 0x92 :: [0xD0, 1, 0xD0, 2])
      ∧ ∀ (f : Field) (fs : List (Field × Ty)) (cur : List (Field × Value)),
          f.exported = true →
          unmarshalFields ((f, .iface) :: fs) cur (0x92 :: [0xD0, 1, 0xD0, 2]) true
            = (unmarshalFields fs cur.tail (0x92 :: [0xD0, 1, 0xD0, 2]) true).map
                (fun p => ((f, (cur.head?.map Prod.snd).getD (zero .iface)) :: p.1, p.2)) :=
  C20_slot_aggregate_consumes_nothing 0x92 (by decide) rfl [0xD0, 1, 0xD0, 2] (.iface none)

/-- Every Map-family and Slice-family tag is outside the tag table of the slot. -/
theorem slotType_aggregate (b : Nat)
    (h : (0x80 ≤ b ∧ b ≤ 0x9F) ∨ b = 0xDC ∨ b = 0xDD ∨ b = 0xDE ∨ b = 0xDF) :
    slotType b = none ∧ b ≠ Nil := by
  have hb : b ≤ 0xDF := by omega
  have h2 : b ≠ 0xC0 := by omega
  refine ⟨?_, h2⟩
  interval_cases b <;> first | rfl | omega

/-! ## Aggregate headers -/

theorem seqHeader_of_lengthTag (n : Nat) :
    (n ≤ 2 ^ 32 - 1 → ∃ tag chunk, lengthTag SliceFix Slice16 Slice32 n = some (tag, chunk)
        ∧ tag :: Chunk.bytes chunk = seqHeader n)
      ∧ (¬ n ≤ 2 ^ 32 - 1 → lengthTag SliceFix Slice16 Slice32 n = none) := by
  constructor
  · intro hn
    by_cases h1 : n ≤ 15
    · refine ⟨(0x90 ||| n) % 256, .none, by simp [lengthTag, Len4, SliceFix, h1], ?_⟩
      have hb : (0x90 ||| n) % 256 = 0x90 ||| n := by
        interval_cases n <;> rfl
      simp [seqHeader, h1, hb, Chunk.bytes]
    · by_cases h2 : n ≤ 65535
      · refine ⟨0xDC, .u16 (n % 2 ^ 16), by simp [lengthTag, Len4, Len16, Slice16, h1, h2], ?_⟩
        simp [seqHeader, h1, h2, Chunk.bytes, Nat.shiftRight_eq_div_pow]
        omega
      · have h3 : n ≤ 4294967295 := by omega
        refine ⟨0xDD, .u32 (n % 2 ^ 32),
          by simp [lengthTag, Len4, Len16, Len32, Slice32, h1, h2, h3], ?_⟩
        simp [seqHeader, h1, h2, Chunk.bytes, Nat.shiftRight_eq_div_pow]
        omega
  · intro hn
    have h1 : ¬ n ≤ 15 := by omega
    have h2 : ¬ n ≤ 65535 := by omega
    have h3 : ¬ n ≤ 4294967295 := by omega
    simp [lengthTag, Len4, Len16, Len32, h1, h2, h3]

/-- C16: aggregate header and oversize failure. For a non-nil map with `n` entries the
encoder returns the Assoc header for `n` (`0x80|n`; `0xDE` and two bytes; `0xDF` and four
bytes) followed by what the entry loop writes, and for a non-nil slice with `n` elements the
Sequence header for `n` (`0x90|n`; `0xDC` and two bytes; `0xDD` and four bytes) followed by
what the element loop writes; when `n > 2^32-1` it fails with `TooManyValuesErr` and
returns no bytes. -/
theorem C16_aggregate_header (addr c : Bool) :
    (∀ es : List (Value × Value),
        marshal (.map (some es)) addr [] c
          = if es.length ≤ 2 ^ 32 - 1 then
              (marshalEntries es [] c).map (fun body => assocHeader es.length ++ body)
            else .fail .TooManyValuesErr)
      ∧ (∀ xs : List Value,
        marshal (.slice (some xs)) addr [] c
          = if xs.length ≤ 2 ^ 32 - 1 then
              (marshalElems xs [] c).map (fun body => seqHeader xs.length ++ body)
            else .fail .TooManyValuesErr) := by
  constructor
  · intro es
    simp only [marshal]
    by_cases hn : es.length ≤ 2 ^ 32 - 1
    · obtain ⟨tag, chunk, ht, hh⟩ := (assocHeader_of_lengthTag es.length).1 hn
      simp only [ht, hn, if_true, ← hh]
      rw [marshalEntries_frame]
      simp
    · simp only [(assocHeader_of_lengthTag es.length).2 hn, hn, if_false]
  · intro xs
    simp only [marshal]
    by_cases hn : xs.length ≤ 2 ^ 32 - 1
    · obtain ⟨tag, chunk, ht, hh⟩ := (seqHeader_of_lengthTag xs.length).1 hn
      simp only [ht, hn, if_true, ← hh]
      rw [marshalElems_frame]
      simp
    · simp only [(seqHeader_of_lengthTag xs.length).2 hn, hn, if_false]

/-! ## Length check of a record destination -/

/-- Counterexample to C12 as stated: the destination `{A int8; b int8}` with `b` unexported
has one settable field and the Assoc `81 a1 61 d0 05` declares one entry, yet the length
check fails with `TooFewValuesErr`: it compares the number of all fields, two, with the
declared length. -/
theorem C12_unsettable_fields_are_counted :
    (mixedType.filter (fun ft => canSet true ft.1)).length = 1
      ∧ lengthOf MapFix Map16 Map32 0x81 [0xA1, 0x61, 0xD0, 0x05]
          = .ok (1, [0xA1, 0x61, 0xD0, 0x05])
      ∧ Unmarshal [0x81, 0xA1, 0x61, 0xD0, 0x05] (.struct mixedType) (zero (.struct mixedType))
          = .fail .TooFewValuesErr :=
  ⟨rfl, rfl, rfl⟩

/-- C12, amended: when the header of an Assoc declares length `n`, decoding it into a record
destination fails with `TooFewValuesErr` at the length check exactly when the number of all
fields of the destination, settable or not, is greater than `n`; when it is at most `n` the
check passes and the outcome is that of the field loop. -/
theorem C12_too_few_values (fs : List (Field × Ty)) (cur : Value) (b n : Nat)
    (rest rest1 : List Nat) (c : Bool) (hnil : b ≠ Nil)
    (hl : lengthOf MapFix Map16 Map32 b rest = .ok (n, rest1)) :
    (n < fs.length → unmarshal (.struct fs) cur (b :: rest) c = .fail .TooFewValuesErr)
      ∧ (fs.length ≤ n → unmarshal (.struct fs) cur (b :: rest) c
          = (unmarshalFields fs cur.fields rest1 c).map (fun p => (Value.struct p.1, p.2))) := by
  constructor
  · intro h
    simp only [unmarshal, readByte, if_neg hnil, hl, gt_iff_lt, h, if_true]
  · intro h
    have h2 : ¬ n < fs.length := by omega
    simp only [unmarshal, readByte, if_neg hnil, hl, gt_iff_lt, h2, if_false]
    cases unmarshalFields fs cur.fields rest1 c with
    | ok p => rfl
    | fail e => rfl
    | panic p => rfl

/-- Witness of C12: the header `0x81` in front of the two-field destination. -/
theorem C12_too_few_values_witness :
    (1 < mixedType.length →
        unmarshal (.struct mixedType) (zero (.struct mixedType))
          (0x81 :: [0xA1, 0x61, 0xD0, 0x05]) false = .fail .TooFewValuesErr)
      ∧ (mixedType.length ≤ 1 →
        unmarshal (.struct mixedType) (zero (.struct mixedType))
          (0x81 :: [0xA1, 0x61, 0xD0, 0x05]) false
          = (unmarshalFields mixedType (zero (.struct mixedType)).fields
              [0xA1, 0x61, 0xD0, 0x05] false).map (fun p => (Value.struct p.1, p.2))) :=
  C12_too_few_values mixedType (zero (.struct mixedType)) 0x81 1 [0xA1, 0x61, 0xD0, 0x05]
    [0xA1, 0x61, 0xD0, 0x05] false (by decide) rfl

/-! ## Sequences -/

/-- A Sequence header for `n ≤ 2^32-1` elements starts with a tag other than `Nil`, and
the decoder reads `n` back from it. -/
theorem seq_header_codec (n : Nat) (hn : n ≤ 2 ^ 32 - 1) :
    ∃ tag chunk, lengthTag SliceFix Slice16 Slice32 n = some (tag, chunk) ∧ tag ≠ Nil
      ∧ ∀ rest,
          lengthOf SliceFix Slice16 Slice32 tag (Chunk.bytes chunk ++ rest) = .ok (n, rest) := by
  by_cases h1 : n ≤ 15
  · refine ⟨(0x90 ||| n) % 256, .none, by simp [lengthTag, Len4, SliceFix, h1], ?_,
      fun rest => ?_⟩
    · interval_cases n <;> decide
    · have h5 : ((0x90 ||| n) % 256) >>> 4 = SliceFix >>> 4
          ∧ ((0x90 ||| n) % 256) &&& 0x0F = n := by
        interval_cases n <;> decide
      simp [lengthOf, h5.1, h5.2, Chunk.bytes]
  · by_cases h2 : n ≤ 65535
    · refine ⟨0xDC, .u16 (n % 2 ^ 16), by simp [lengthTag, Len4, Len16, Slice16, h1, h2],
        by decide, fun rest => ?_⟩
      have hm : n % 2 ^ 16 % 2 ^ 16 = n := by omega
      simp only [lengthOf, next_u16, beUint16_bytes, hm]
      simp [SliceFix, Slice16]
    · have h3 : n ≤ 4294967295 := by omega
      refine ⟨0xDD, .u32 (n % 2 ^ 32),
        by simp [lengthTag, Len4, Len16, Len32, Slice32, h1, h2, h3], by decide,
        fun rest => ?_⟩
      have hm : n % 2 ^ 32 % 2 ^ 32 = n := by omega
      simp only [lengthOf, next_u32, beUint32_bytes, hm]
      simp [SliceFix, Slice16, Slice32]

/-- The element loops of `marshalSlice` and `unmarshalSlice` agree on 64-bit integers: what
the first writes, the second reads back and appends, whatever follows in the buffer. -/
theorem elems_codec (xs : List Int)
    (hr : ∀ x ∈ xs, -(2 : Int) ^ 63 ≤ x ∧ x < (2 : Int) ^ 63) (c : Bool) :
    ∃ body, marshalElems (xs.map Value.int64) [] c = .ok body
      ∧ ∀ (acc : Option (List Value)) (tail : List Nat),
          loopN xs.length
            (fun (acc : Option (List Value)) bf =>
              match unmarshal .int64 (zero .int64) bf c with
              | .ok (f, bf1) => .ok (some (acc.getD [] ++ [f]), bf1)
              | .fail e => .fail e
              | .panic p => .panic p)
            acc (body ++ tail)
          = .ok (if xs = [] then acc else some (acc.getD [] ++ xs.map Value.int64), tail) := by
  induction xs with
  | nil => exact ⟨[], rfl, fun acc tail => rfl⟩
  | cons x xs ih =>
    obtain ⟨body, hm, hu⟩ := ih (fun y hy => hr y (List.mem_cons_of_mem _ hy))
    have hx := hr x (List.mem_cons_self _ _)
    obtain ⟨val, hmv, huv⟩ := simple_codec (.int .int64 x)
      (by simp only [Simple.wf, IntKind.width, Bool.and_eq_true, decide_eq_true_eq]
          exact hx) true c
    simp only [Simple.value, Simple.ty, IntKind.value, IntKind.ty] at hmv huv
    refine ⟨val ++ body, ?_, fun acc tail => ?_⟩
    · simp only [List.map_cons, marshalElems, hmv]
      rw [marshalElems_frame, hm]
      rfl
    · simp only [List.length_cons, loopN, List.append_assoc, huv, hu]
      by_cases hxs : xs = []
      · subst hxs
        simp
      · simp [hxs]

/-- C14: sequence round trip with framing. For every non-nil slice of at most `2^32-1`
signed 64-bit integers and every byte string `tail`, `Marshal` succeeds and `Unmarshal` of
its bytes followed by `tail` into an empty slice destination (nil or of length zero) of the
same element type succeeds, leaves the destination holding exactly the elements of the
slice in index order, and returns exactly `tail`. -/
theorem C14_sequence_round_trip (xs : List Int)
    (hr : ∀ x ∈ xs, -(2 : Int) ^ 63 ≤ x ∧ x < (2 : Int) ^ 63) (hn : xs.length ≤ 2 ^ 32 - 1)
    (tail : List Nat) (dst : Option (List Value)) (hd : dst.getD [] = []) :
    ∃ bytes res, Marshal (.slice (some (xs.map Value.int64))) = .ok bytes
      ∧ Unmarshal (bytes ++ tail) (.slice .int64) (.slice dst) = .ok (.slice res, tail)
      ∧ res.getD [] = xs.map Value.int64 := by
  obtain ⟨tag, chunk, ht, hnil, hlen⟩ := seq_header_codec xs.length hn
  obtain ⟨body, hm, hu⟩ := elems_codec xs hr false
  refine ⟨tag :: (chunk.bytes ++ body),
    if xs = [] then dst else some (dst.getD [] ++ xs.map Value.int64), ?_, ?_, ?_⟩
  · simp only [Marshal, runMarshal, marshal, List.length_map, ht]
    rw [marshalElems_frame, hm]
    simp [Res.map]
  · have e : (tag :: (chunk.bytes ++ body)) ++ tail = tag :: (chunk.bytes ++ (body ++ tail)) := by
      simp
    rw [e]
    simp only [Unmarshal, unmarshal, readByte, if_neg hnil, hlen, hu]
  · by_cases hxs : xs = []
    · simp [hxs, hd]
    · simp [hxs, hd]

/-- Witness of C14: the slice `[1, -1]` followed by the byte `9`. -/
theorem C14_sequence_round_trip_witness :
    ∃ bytes res, Marshal (.slice (some ([1, -1].map Value.int64))) = .ok bytes
      ∧ Unmarshal (bytes ++ [9]) (.slice .int64) (.slice none) = .ok (.slice res, [9])
      ∧ res.getD [] = [1, -1].map Value.int64 :=
  C14_sequence_round_trip [1, -1] (by decide) (by decide) [9] none rfl

/-! ## Optional references -/

/-- A simple value that fits is written as a tag other than `Nil` and a payload, and
`unmarshal` into a destination of its type reads exactly that back. -/
theorem simple_codec_fits (s : Simple) (hw : s.fits = true) (addr compact : Bool) :
    ∃ tag pay, marshal s.value addr [] compact = .ok (tag :: pay) ∧ tag ≠ Nil
      ∧ ∀ cur rest c, unmarshal s.ty cur (tag :: (pay ++ rest)) c = .ok (s.value, rest) := by
  rw [marshal_simple]
  cases s with
  | int k i =>
    simp only [Simple.fits, Bool.and_eq_true, decide_eq_true_eq] at hw
    obtain ⟨tag, pay, he, ht, hd⟩ := int_codec k i hw.1 hw.2
    refine ⟨tag, pay, he, ht, fun cur rest c => ?_⟩
    have := unmarshal_simple (.int k i) cur tag (pay ++ rest) c ht
    simp only [Simple.ty] at this
    simp only [Simple.ty, Simple.value, this, hd]
  | bool b =>
    cases b
    · refine ⟨False, [], rfl, by decide, fun cur rest c => ?_⟩
      have := unmarshal_simple (.bool false) cur False rest c (by decide)
      simp only [Simple.ty] at this
      simp only [Simple.ty, Simple.value, List.nil_append, this]
      rfl
    · refine ⟨True, [], rfl, by decide, fun cur rest c => ?_⟩
      have := unmarshal_simple (.bool true) cur True rest c (by decide)
      simp only [Simple.ty] at this
      simp only [Simple.ty, Simple.value, List.nil_append, this]
      rfl
  | text t =>
    simp only [Simple.fits, decide_eq_true_eq] at hw
    obtain ⟨tag, pre, he, ht, hd⟩ := string_codec t hw
    refine ⟨tag, pre ++ t, he, ht, fun cur rest c => ?_⟩
    have := unmarshal_simple (.text t) cur tag (pre ++ t ++ rest) c ht
    simp only [Simple.ty] at this
    simp only [Simple.ty, Simple.value, this, hd]

/-- Counterexample to C15 as stated: the pointer to the 8-bit value 5 is encoded as `d0 05`,
and decoding those bytes into a pointer destination that is nil fails: `v.Elem()` of a nil
pointer is the zero `reflect.Value`, whose kind `invalid` has no decode rule. -/
theorem C15_nil_pointer_destination_fails :
    Marshal (.ptr (some (.int8 5))) = .ok [0xD0, 5]
      ∧ Unmarshal [0xD0, 5] (.ptr .int8) (.ptr none) = .fail (.UnsupportedTypeErr "invalid") :=
  ⟨rfl, rfl⟩

/-- C15, amended: for every pointer to a value `v` that is an in-range signed integer, a
boolean or a text shorter than 65536 bytes, encoding the pointer produces, in both modes,
exactly what encoding `v` produces; decoding those bytes into a pointer destination of the
same shape that already refers to storage succeeds, leaves it referring to a value equal to
`v` and leaves no byte unread; decoding them into a nil pointer destination fails with
`UnsupportedTypeErr`. -/
theorem C15_pointer_transparent (s : Simple) (hw : s.fits = true) :
    Marshal (.ptr (some s.value)) = Marshal s.value
      ∧ MarshalCompact (.ptr (some s.value)) = MarshalCompact s.value
      ∧ ∃ bytes, Marshal (.ptr (some s.value)) = .ok bytes
          ∧ (∀ old : Value,
              Unmarshal bytes (.ptr s.ty) (.ptr (some old)) = .ok (.ptr (some s.value), []))
          ∧ Unmarshal bytes (.ptr s.ty) (.ptr none) = .fail (.UnsupportedTypeErr "invalid") := by
  have hp : ∀ c, runMarshal (valueOf (.ptr (some s.value))) c = runMarshal (valueOf s.value) c := by
    intro c
    simp only [valueOf_ptr, valueOf_simple, runMarshal, marshal_ptr, marshal_simple]
  obtain ⟨tag, pay, hm, hnil, hu⟩ := simple_codec_fits s hw false false
  refine ⟨hp false, hp true, tag :: pay, ?_, fun old => ?_, ?_⟩
  · rw [Marshal, hp false, valueOf_simple]
    exact hm
  · have h := hu old [] false
    rw [List.append_nil] at h
    simp only [Unmarshal, unmarshal, readByte, if_neg hnil, h]
  · simp only [Unmarshal, unmarshal, readByte, if_neg hnil]

/-- Witness of C15: a pointer to the text `pack`. -/
theorem C15_pointer_transparent_witness :
    Marshal (.ptr (some (Simple.text (asciiBytes "pack")).value))
        = Marshal (Simple.text (asciiBytes "pack")).value
      ∧ MarshalCompact (.ptr (some (Simple.text (asciiBytes "pack")).value))
        = MarshalCompact (Simple.text (asciiBytes "pack")).value
      ∧ ∃ bytes, Marshal (.ptr (some (Simple.text (asciiBytes "pack")).value)) = .ok bytes
          ∧ (∀ old : Value,
              Unmarshal bytes (.ptr (Simple.text (asciiBytes "pack")).ty) (.ptr (some old))
                = .ok (.ptr (some (Simple.text (asciiBytes "pack")).value), []))
          ∧ Unmarshal bytes (.ptr (Simple.text (asciiBytes "pack")).ty) (.ptr none)
              = .fail (.UnsupportedTypeErr "invalid") :=
  C15_pointer_transparent (.text (asciiBytes "pack")) (by decide)

/-! ## Entries of a record on the wire -/

/-- A well-formed key is read back in full: after `ReadByte` and `decode` into the throw-away
string the buffer stands right behind the key. -/
theorem key_read (k : Key) (hk : k.wf = true) (buf : List Nat) :
    ∃ tag body, k.bytes ++ buf = tag :: body
      ∧ decode .string tag body = .ok (.string k.content, buf) := by
  obtain ⟨cls, s⟩ := k
  have hdec : ∀ (tag : Nat) (pre : List Nat),
      stringLength tag (pre ++ (s ++ buf)) = .ok (s.length, s ++ buf) →
      decode .string tag (pre ++ (s ++ buf)) = .ok (.string s, buf) := by
    intro tag pre h
    simp only [decode, h, next_append]
  cases cls
  · have h0 : s.length ≤ 31 := by simpa [Key.wf] using hk
    refine ⟨StringFix ||| s.length, s ++ buf, rfl, hdec _ [] ?_⟩
    have h5 : (StringFix ||| s.length) >>> 5 = StringFix >>> 5
        ∧ (StringFix ||| s.length) &&& 0x1F = s.length := by
      generalize s.length = n at h0
      interval_cases n <;> decide
    simp [stringLength, h5.1, h5.2]
  · refine ⟨String8, s.length :: (s ++ buf), rfl, hdec _ [s.length] ?_⟩
    simp [stringLength, StringFix, String8, Bin8, readByte]
  · refine ⟨Bin8, s.length :: (s ++ buf), rfl, hdec _ [s.length] ?_⟩
    simp [stringLength, StringFix, String8, Bin8, readByte]
  · have h2 : s.length ≤ 65535 := by simpa [Key.wf] using hk
    refine ⟨String16, (Chunk.u16 s.length).bytes ++ (s ++ buf), ?_, hdec _ _ ?_⟩
    · simp only [Key.bytes, List.cons_append, List.append_assoc]
    · have hn := next_u16 s.length (s ++ buf)
      have : s.length % 2 ^ 16 = s.length := by omega
      simp only [stringLength, hn, beUint16_bytes, this]
      simp [StringFix, String8, Bin8, String16, Bin16]
  · have h2 : s.length ≤ 65535 := by simpa [Key.wf] using hk
    refine ⟨Bin16, (Chunk.u16 s.length).bytes ++ (s ++ buf), ?_, hdec _ _ ?_⟩
    · simp only [Key.bytes, List.cons_append, List.append_assoc]
    · have hn := next_u16 s.length (s ++ buf)
      have : s.length % 2 ^ 16 = s.length := by omega
      simp only [stringLength, hn, beUint16_bytes, this]
      simp [StringFix, String8, Bin8, String16, Bin16]

/-- One settable field in verbose mode: after the key, the value is decoded from what follows
the key. -/
theorem unmarshalFields_cons_key (f : Field) (t : Ty) (fs : List (Field × Ty))
    (cur : List (Field × Value)) (k : Key) (buf : List Nat) (hf : canSet true f = true)
    (hk : k.wf = true) :
    unmarshalFields ((f, t) :: fs) cur (k.bytes ++ buf) false
      = match unmarshal t ((cur.head?.map Prod.snd).getD (zero t)) buf false with
        | .ok (v, buf2) =>
          match unmarshalFields fs cur.tail buf2 false with
          | .ok (vs, buf3) => .ok ((f, v) :: vs, buf3)
          | .fail e => .fail e
          | .panic p => .panic p
        | .fail e => .fail e
        | .panic p => .panic p := by
  obtain ⟨tag, body, hkb, hd⟩ := key_read k hk buf
  rw [hkb]
  simp only [unmarshalFields, hf, Bool.not_true, Bool.false_eq_true, if_false, Bool.not_false,
    if_true, readByte, hd]

/-- One field that cannot be set: nothing is read. -/
theorem unmarshalFields_cons_skip (f : Field) (t : Ty) (fs : List (Field × Ty))
    (cur : List (Field × Value)) (buf : List Nat) (c : Bool) (hf : ¬ canSet true f = true) :
    unmarshalFields ((f, t) :: fs) cur buf c
      = match unmarshalFields fs cur.tail buf c with
        | .ok (vs, buf1) => .ok ((f, ((cur.head?.map Prod.snd).getD (zero t))) :: vs, buf1)
        | .fail e => .fail e
        | .panic p => .panic p := by
  have h : canSet true f = false := by simpa using hf
  simp only [unmarshalFields, h, Bool.not_false, if_true]

/-- The field loop of `unmarshalStruct` on a run of entries that suit the settable fields
of the destination, one entry per settable field: the fields take the values by position
and the buffer stands right behind the last entry read. -/
theorem fields_decode (fs : List (Field × Ty)) (cur : List (Field × Value)) (es : List Entry)
    (h : List.Forall₂ Entry.fitsSlot (slots fs cur) es) (rest : List Nat) :
    unmarshalFields fs cur (entriesBytes es ++ rest) false
      = .ok (assign fs cur (es.map Entry.decoded), rest) := by
  induction fs generalizing es cur with
  | nil =>
    simp only [slots, List.forall₂_nil_left_iff] at h
    subst h
    rfl
  | cons ft fs ih =>
    obtain ⟨f, t⟩ := ft
    by_cases hs : canSet true f = true
    · simp only [slots, hs, if_true] at h
      cases h with
      | cons h1 h2 =>
        rename_i e es1
        have e1 : entriesBytes (e :: es1) ++ rest
            = e.key.bytes ++ (e.val ++ (entriesBytes es1 ++ rest)) := by
          simp [entriesBytes, Entry.bytes]
        rw [e1, unmarshalFields_cons_key f t fs cur e.key _ hs h1.1, h1.2]
        simp only [ih cur.tail es1 h2, List.map_cons, assign, hs, if_true]
    · simp only [slots, hs, Bool.false_eq_true, if_false] at h
      rw [unmarshalFields_cons_skip f t fs cur _ false hs, ih cur.tail es h]
      simp only [assign, hs, Bool.false_eq_true, if_false]

/-- There is one slot for each settable field. -/
theorem slots_length (fs : List (Field × Ty)) (cur : List (Field × Value)) :
    (slots fs cur).length = (fs.filter (fun ft => canSet true ft.1)).length := by
  induction fs generalizing cur with
  | nil => rfl
  | cons ft fs ih =>
    obtain ⟨f, t⟩ := ft
    by_cases hs : canSet true f = true
    · rw [List.filter_cons_of_pos (by simpa using hs)]
      simp only [slots, hs, if_true, List.length_cons, ih]
    · rw [List.filter_cons_of_neg (by simpa using hs)]
      simp only [slots, hs, Bool.false_eq_true, if_false, ih]

/-- The settable fields of the destination hold, after positional assignment of one value
per settable field, exactly those values in order. -/
theorem assign_settable (fs : List (Field × Ty)) (cur : List (Field × Value))
    (vs : List Value) (h : (fs.filter (fun ft => canSet true ft.1)).length = vs.length) :
    ((assign fs cur vs).filter (fun fv => canSet true fv.1)).map Prod.snd = vs := by
  induction fs generalizing cur vs with
  | nil =>
    simp only [List.filter_nil, List.length_nil] at h
    have : vs = [] := List.length_eq_zero.mp h.symm
    subst this
    rfl
  | cons ft fs ih =>
    obtain ⟨f, t⟩ := ft
    by_cases hs : canSet true f = true
    · rw [List.filter_cons_of_pos (by simpa using hs)] at h
      cases vs with
      | nil => simp at h
      | cons v vs1 =>
        simp only [List.length_cons, Nat.add_right_cancel_iff] at h
        simp only [assign, hs, if_true]
        rw [List.filter_cons_of_pos (by simpa using hs)]
        simp only [List.map_cons, ih cur.tail vs1 h]
    · rw [List.filter_cons_of_neg (by simpa using hs)] at h
      simp only [assign, hs, Bool.false_eq_true, if_false]
      rw [List.filter_cons_of_neg (by simpa using hs)]
      exact ih cur.tail vs h

/-- The decoder reads the declared length back from an Assoc header. -/
theorem assocHeader_read (n : Nat) (hn : n ≤ 2 ^ 32 - 1) :
    ∃ tag pre, assocHeader n = tag :: pre ∧ tag ≠ Nil
      ∧ ∀ rest, lengthOf MapFix Map16 Map32 tag (pre ++ rest) = .ok (n, rest) := by
  obtain ⟨tag, chunk, ht, hnil, hlen⟩ := assoc_header_codec n hn
  obtain ⟨tag1, chunk1, ht1, hh⟩ := (assocHeader_of_lengthTag n).1 hn
  rw [ht] at ht1
  injection ht1 with ht1
  injection ht1 with h1 h2
  subst h1 h2
  exact ⟨tag, chunk.bytes, hh.symm, hnil, hlen⟩

/-- Counterexample to C13 as stated: the destination `{A, B, c, d int8}` has two settable
fields, the Assoc `83 a1 61 d0 01 a1 62 d0 02 a1 63 d0 03` has three well-formed entries,
and `Unmarshal` fails with `TooFewValuesErr`, because the destination has four fields in
all. -/
theorem C13_unsettable_fields_need_entries :
    (wideType.filter (fun ft => canSet true ft.1)).length = 2
      ∧ assocHeader 3 ++ entriesBytes threeEntries
          = [0x83, 0xA1, 0x61, 0xD0, 1, 0xA1, 0x62, 0xD0, 2, 0xA1, 0x63, 0xD0, 3]
      ∧ Unmarshal (assocHeader 3 ++ entriesBytes threeEntries) (.struct wideType)
            (zero (.struct wideType))
          = .fail .TooFewValuesErr :=
  ⟨rfl, by decide, rfl⟩

/-- C13, amended: take a verbose Assoc of `n ≤ 2^32-1` entries and a record destination
with at most `n` fields in all, `k` of them settable, such that the first `k` entries suit
the settable fields in order: each key is a well-formed Text or Bytes value whose length is
held inline in the tag, in one byte or in two bytes, and each value is an encoding that its
field, with the content the destination holds there, decodes. Then `Unmarshal` succeeds,
the settable fields take the values of the first `k` entries by position, every other field
keeps its content, and the remainder is exactly the bytes of the last `n-k` entries, keys
and values. -/
theorem C13_narrower_destination (fs : List (Field × Ty)) (cur : Value)
    (es extra : List Entry)
    (hwf : List.Forall₂ Entry.fitsSlot (slots fs cur.fields) es)
    (hk : fs.length ≤ es.length + extra.length) (hn : es.length + extra.length ≤ 2 ^ 32 - 1) :
    Unmarshal (assocHeader (es.length + extra.length) ++ entriesBytes (es ++ extra))
        (.struct fs) cur
      = .ok (.struct (assign fs cur.fields (es.map Entry.decoded)), entriesBytes extra)
      ∧ ((assign fs cur.fields (es.map Entry.decoded)).filter
            (fun fv => canSet true fv.1)).map Prod.snd
          = es.map Entry.decoded := by
  constructor
  · obtain ⟨tag, pre, hh, hnil, hlen⟩ := assocHeader_read _ hn
    have e1 : assocHeader (es.length + extra.length) ++ entriesBytes (es ++ extra)
        = tag :: (pre ++ (entriesBytes es ++ entriesBytes extra)) := by
      rw [hh]
      simp [entriesBytes]
    have h2 : ¬ es.length + extra.length < fs.length := by omega
    rw [e1]
    simp only [Unmarshal, unmarshal, readByte, if_neg hnil, hlen, gt_iff_lt, h2, if_false,
      fields_decode fs cur.fields es hwf]
  · refine assign_settable fs cur.fields _ ?_
    rw [List.length_map, ← hwf.length_eq, slots_length]

/-- Witness of C13: three entries, with keys of three different length headers, into the
destination `{A int8; B *int8}` whose pointer field refers to storage. -/
theorem C13_narrower_destination_witness :
    Unmarshal (assocHeader ((mixedEntries.take 2).length + (mixedEntries.drop 2).length)
          ++ entriesBytes (mixedEntries.take 2 ++ mixedEntries.drop 2))
        (.struct pairType) pairDest
      = .ok (.struct (assign pairType pairDest.fields
              ((mixedEntries.take 2).map Entry.decoded)),
            entriesBytes (mixedEntries.drop 2))
      ∧ ((assign pairType pairDest.fields
              ((mixedEntries.take 2).map Entry.decoded)).filter
            (fun fv => canSet true fv.1)).map Prod.snd
          = (mixedEntries.take 2).map Entry.decoded :=
  C13_narrower_destination pairType pairDest (mixedEntries.take 2)
    (mixedEntries.drop 2)
    (List.Forall₂.cons ⟨by decide, fun _ => rfl⟩
      (List.Forall₂.cons ⟨by decide, fun _ => rfl⟩ List.Forall₂.nil))
    (by decide) (by decide)

/-! ## Keys do not bind fields -/

/-- The field loop of `unmarshalStruct` on two runs of entries that differ in their keys
only, one entry per settable field: the outcome is the same. -/
theorem fields_keys_irrelevant (fs : List (Field × Ty)) (cur : List (Field × Value))
    (ps : List KeyPair) (h : List.Forall₂ KeyPair.fitsSlot (slots fs cur) ps)
    (rest : List Nat) :
    unmarshalFields fs cur (bytesA ps ++ rest) false
      = unmarshalFields fs cur (bytesB ps ++ rest) false := by
  induction fs generalizing ps cur with
  | nil =>
    simp only [slots, List.forall₂_nil_left_iff] at h
    subst h
    rfl
  | cons ft fs ih =>
    obtain ⟨f, t⟩ := ft
    by_cases hs : canSet true f = true
    · simp only [slots, hs, if_true] at h
      cases h with
      | cons h1 h2 =>
        rename_i p ps1
        have eA : bytesA (p :: ps1) ++ rest
            = p.keyA.bytes ++ (p.val ++ (bytesA ps1 ++ rest)) := by
          simp [bytesA]
        have eB : bytesB (p :: ps1) ++ rest
            = p.keyB.bytes ++ (p.val ++ (bytesB ps1 ++ rest)) := by
          simp [bytesB]
        obtain ⟨out, hout⟩ := h1.2.2
        simp only at hout
        rw [eA, eB, unmarshalFields_cons_key f t fs cur p.keyA _ hs h1.1,
          unmarshalFields_cons_key f t fs cur p.keyB _ hs h1.2.1, hout, hout]
        cases out with
        | ok v => simp only [Res.map, ih cur.tail ps1 h2]
        | fail e => rfl
        | panic q => rfl
    · simp only [slots, hs, Bool.false_eq_true, if_false] at h
      rw [unmarshalFields_cons_skip f t fs cur _ false hs,
        unmarshalFields_cons_skip f t fs cur _ false hs, ih cur.tail ps h]

/-- A key whose length is held in four bytes is not read back: the decoder takes the first
two of the four length bytes as the length, so the content of such a key is decoded as the
value. The inputs `81 db 00 00 00 01 61 d0 05` and `81 db 00 00 00 01 62 d0 05` differ in
the content of the key only and fail with different tags. -/
theorem key_with_32_bit_length_not_skipped :
    Unmarshal [0x81, 0xDB, 0, 0, 0, 1, 0x61, 0xD0, 5] (.struct [(⟨asciiBytes "A",
        asciiBytes "a", true⟩, .int8)]) (.struct [(⟨asciiBytes "A", asciiBytes "a", true⟩,
        .int8 0)])
      = .fail (.InvalidTagErr 0x61)
      ∧ Unmarshal [0x81, 0xDB, 0, 0, 0, 1, 0x62, 0xD0, 5] (.struct [(⟨asciiBytes "A",
        asciiBytes "a", true⟩, .int8)]) (.struct [(⟨asciiBytes "A", asciiBytes "a", true⟩,
        .int8 0)])
      = .fail (.InvalidTagErr 0x62) :=
  ⟨rfl, rfl⟩

/-- Counterexample to C17 as stated: the inputs `82 a1 61 c3 a1 62 c3` and
`82 a1 61 c3 a1 7a c3` differ only in the content of the second key; decoded into a
destination with one boolean field they give the same field value but different
remainders, because the second entry is left unread. -/
theorem C17_unread_keys_reach_the_remainder :
    Unmarshal [0x82, 0xA1, 0x61, 0xC3, 0xA1, 0x62, 0xC3] (.struct flagType)
        (zero (.struct flagType))
      = .ok (.struct [(⟨asciiBytes "A", asciiBytes "a", true⟩, .bool true)], [0xA1, 0x62, 0xC3])
      ∧ Unmarshal [0x82, 0xA1, 0x61, 0xC3, 0xA1, 0x7A, 0xC3] (.struct flagType)
        (zero (.struct flagType))
      = .ok (.struct [(⟨asciiBytes "A", asciiBytes "a", true⟩, .bool true)], [0xA1, 0x7A, 0xC3])
      ∧ Unmarshal [0x82, 0xA1, 0x61, 0xC3, 0xA1, 0x62, 0xC3] (.struct flagType)
          (zero (.struct flagType))
        ≠ Unmarshal [0x82, 0xA1, 0x61, 0xC3, 0xA1, 0x7A, 0xC3] (.struct flagType)
          (zero (.struct flagType)) := by
  refine ⟨rfl, rfl, ?_⟩
  intro h
  have h1 : Unmarshal [0x82, 0xA1, 0x61, 0xC3, 0xA1, 0x62, 0xC3] (.struct flagType)
      (zero (.struct flagType))
      = .ok (.struct [(⟨asciiBytes "A", asciiBytes "a", true⟩, .bool true)], [0xA1, 0x62, 0xC3]) := rfl
  have h2 : Unmarshal [0x82, 0xA1, 0x61, 0xC3, 0xA1, 0x7A, 0xC3] (.struct flagType)
      (zero (.struct flagType))
      = .ok (.struct [(⟨asciiBytes "A", asciiBytes "a", true⟩, .bool true)], [0xA1, 0x7A, 0xC3]) := rfl
  rw [h1, h2] at h
  injection h with h
  injection h with _ h
  revert h
  decide

/-- C17, amended: take a record destination and two verbose inputs with the same header
(declaring `n ≤ 2^32-1` entries), the same bytes after the entries the destination reads,
and, for each settable field in order, entries that differ in their keys only, every key a
well-formed Text or Bytes value whose length is held inline in the tag, in one byte or in
two bytes (the two keys of a field may differ in content, in length and in the kind of
header) and every value self-delimiting for its field with the content the destination
holds there. Then `Unmarshal` returns the same outcome on both: the same error, or the same
destination content and the same remainder. -/
theorem C17_keys_do_not_matter (fs : List (Field × Ty)) (cur : Value) (n : Nat)
    (ps : List KeyPair) (rest : List Nat) (hn : n ≤ 2 ^ 32 - 1)
    (h : List.Forall₂ KeyPair.fitsSlot (slots fs cur.fields) ps) :
    Unmarshal (assocHeader n ++ (bytesA ps ++ rest)) (.struct fs) cur
      = Unmarshal (assocHeader n ++ (bytesB ps ++ rest)) (.struct fs) cur := by
  obtain ⟨tag, pre, hh, hnil, hlen⟩ := assocHeader_read n hn
  have eA : assocHeader n ++ (bytesA ps ++ rest) = tag :: (pre ++ (bytesA ps ++ rest)) := by
    rw [hh]; rfl
  have eB : assocHeader n ++ (bytesB ps ++ rest) = tag :: (pre ++ (bytesB ps ++ rest)) := by
    rw [hh]; rfl
  rw [eA, eB]
  simp only [Unmarshal, unmarshal, readByte, if_neg hnil, hlen,
    fields_keys_irrelevant fs cur.fields ps h]

/-- Witness of C17: the inline Text key `a` and the Bytes key `zz` with a length of two
bytes, in front of the value `true`. -/
theorem C17_keys_do_not_matter_witness :
    Unmarshal (assocHeader 1
          ++ (bytesA [⟨⟨.textFix, asciiBytes "a"⟩, ⟨.bytes16, asciiBytes "zz"⟩, [0xC3]⟩] ++ [7]))
        (.struct flagType) (zero (.struct flagType))
      = Unmarshal (assocHeader 1
          ++ (bytesB [⟨⟨.textFix, asciiBytes "a"⟩, ⟨.bytes16, asciiBytes "zz"⟩, [0xC3]⟩] ++ [7]))
        (.struct flagType) (zero (.struct flagType)) :=
  C17_keys_do_not_matter flagType (zero (.struct flagType)) 1
    [⟨⟨.textFix, asciiBytes "a"⟩, ⟨.bytes16, asciiBytes "zz"⟩, [0xC3]⟩] [7] (by decide)
    (List.Forall₂.cons ⟨by decide, by decide, ⟨.ok (.bool true), fun _ => rfl⟩⟩
      List.Forall₂.nil)

/-! ## Compact against verbose -/

/-- The encoding of a string has at least one byte, its tag. -/
theorem encode_string_length_pos (s key : List Nat)
    (h : encode (.string s) [] = .ok key) : 1 ≤ key.length := by
  simp only [encode] at h
  cases ht : stringTag (validString s) s.length with
  | none => rw [ht] at h; cases h
  | some tc =>
    rw [ht] at h
    injection h with h
    subst h
    simp

/-- What `marshal` returns for a record: the header, then what the field loop writes. -/
theorem marshal_struct_eq (fs : List (Field × Value)) (addr c : Bool) :
    marshal (.struct fs) addr [] c
      = match lengthTag MapFix Map16 Map32 fs.length with
        | none => .fail .TooManyValuesErr
        | some (tag, chunk) =>
          (marshalFields fs addr [] c).map (fun body => (tag :: chunk.bytes) ++ body) := by
  simp only [marshal]
  cases lengthTag MapFix Map16 Map32 fs.length with
  | none => rfl
  | some tc =>
    simp only
    rw [marshalFields_frame]
    simp

/-- What `marshal` returns for a non-nil map: the header, then what the entry loop writes. -/
theorem marshal_map_eq (es : List (Value × Value)) (addr c : Bool) :
    marshal (.map (some es)) addr [] c
      = match lengthTag MapFix Map16 Map32 es.length with
        | none => .fail .TooManyValuesErr
        | some (tag, chunk) =>
          (marshalEntries es [] c).map (fun body => (tag :: chunk.bytes) ++ body) := by
  simp only [marshal]
  cases lengthTag MapFix Map16 Map32 es.length with
  | none => rfl
  | some tc =>
    simp only
    rw [marshalEntries_frame]
    simp

/-- What `marshal` returns for a non-nil slice: the header, then what the element loop
writes. -/
theorem marshal_slice_eq (xs : List Value) (addr c : Bool) :
    marshal (.slice (some xs)) addr [] c
      = match lengthTag SliceFix Slice16 Slice32 xs.length with
        | none => .fail .TooManyValuesErr
        | some (tag, chunk) =>
          (marshalElems xs [] c).map (fun body => (tag :: chunk.bytes) ++ body) := by
  simp only [marshal]
  cases lengthTag SliceFix Slice16 Slice32 xs.length with
  | none => rfl
  | some tc =>
    simp only
    rw [marshalElems_frame]
    simp

/-- One step of the entry loop of `marshalMap`, on an empty buffer. -/
theorem marshalEntries_cons_ok (k v : Value) (rest : List (Value × Value)) (c : Bool)
    (body : List Nat) :
    marshalEntries ((k, v) :: rest) [] c = .ok body ↔
      ∃ kb vb tail, marshal k false [] c = .ok kb ∧ marshal v false [] c = .ok vb
        ∧ marshalEntries rest [] c = .ok tail ∧ body = kb ++ vb ++ tail := by
  simp only [marshalEntries]
  cases hk : marshal k false [] c with
  | ok kb =>
    simp only
    rw [marshal_frame v false kb c]
    cases hv : marshal v false [] c with
    | ok vb =>
      simp only [Res.map]
      rw [marshalEntries_frame rest (kb ++ vb) c]
      cases ht : marshalEntries rest [] c with
      | ok tail =>
        simp only [Res.map, Res.ok.injEq]
        constructor
        · intro h; exact ⟨kb, vb, tail, rfl, rfl, rfl, h.symm⟩
        · rintro ⟨kb1, vb1, tail1, h1, h2, h3, h4⟩
          subst h1 h2 h3; exact h4.symm
      | fail e => simp [Res.map]
      | panic p => simp [Res.map]
    | fail e => simp [Res.map]
    | panic p => simp [Res.map]
  | fail e => simp
  | panic p => simp

/-- One step of the element loop of `marshalSlice`, on an empty buffer. -/
theorem marshalElems_cons_ok (v : Value) (rest : List Value) (c : Bool) (body : List Nat) :
    marshalElems (v :: rest) [] c = .ok body ↔
      ∃ vb tail, marshal v true [] c = .ok vb ∧ marshalElems rest [] c = .ok tail
        ∧ body = vb ++ tail := by
  simp only [marshalElems]
  cases hv : marshal v true [] c with
  | ok vb =>
    simp only
    rw [marshalElems_frame rest vb c]
    cases ht : marshalElems rest [] c with
    | ok tail =>
      simp only [Res.map, Res.ok.injEq]
      constructor
      · intro h; exact ⟨vb, tail, rfl, rfl, h.symm⟩
      · rintro ⟨vb1, tail1, h1, h2, h3⟩
        subst h1 h2; exact h3.symm
    | fail e => simp [Res.map]
    | panic p => simp [Res.map]
  | fail e => simp
  | panic p => simp

mutual
/-- Whatever `marshal` writes in verbose mode, it writes in compact mode too, in no more
bytes. -/
theorem compact_le : ∀ (v : Value) (addr : Bool) (out : List Nat),
    marshal v addr [] false = .ok out →
    ∃ outc, marshal v addr [] true = .ok outc ∧ outc.length ≤ out.length
  | .struct fs, addr, out, h => by
    rw [marshal_struct_eq] at h ⊢
    cases ht : lengthTag MapFix Map16 Map32 fs.length with
    | none => rw [ht] at h; cases h
    | some tc =>
      rw [ht] at h
      simp only at h ⊢
      cases hb : marshalFields fs addr [] false with
      | ok body =>
        rw [hb] at h
        injection h with h
        obtain ⟨bodyc, hc, hle⟩ := compact_le_fields fs addr body hb
        refine ⟨(tc.1 :: tc.2.bytes) ++ bodyc, by rw [hc]; rfl, ?_⟩
        rw [← h]
        simp only [List.length_append]
        omega
      | fail e => rw [hb] at h; cases h
      | panic p => rw [hb] at h; cases h
  | .map none, _, out, h => ⟨out, h, le_refl _⟩
  | .map (some es), addr, out, h => by
    rw [marshal_map_eq] at h ⊢
    cases ht : lengthTag MapFix Map16 Map32 es.length with
    | none => rw [ht] at h; cases h
    | some tc =>
      rw [ht] at h
      simp only at h ⊢
      cases hb : marshalEntries es [] false with
      | ok body =>
        rw [hb] at h
        injection h with h
        obtain ⟨bodyc, hc, hle⟩ := compact_le_entries es body hb
        refine ⟨(tc.1 :: tc.2.bytes) ++ bodyc, by rw [hc]; rfl, ?_⟩
        rw [← h]
        simp only [List.length_append]
        omega
      | fail e => rw [hb] at h; cases h
      | panic p => rw [hb] at h; cases h
  | .slice none, _, out, h => ⟨out, h, le_refl _⟩
  | .slice (some xs), addr, out, h => by
    rw [marshal_slice_eq] at h ⊢
    cases ht : lengthTag SliceFix Slice16 Slice32 xs.length with
    | none => rw [ht] at h; cases h
    | some tc =>
      rw [ht] at h
      simp only at h ⊢
      cases hb : marshalElems xs [] false with
      | ok body =>
        rw [hb] at h
        injection h with h
        obtain ⟨bodyc, hc, hle⟩ := compact_le_elems xs body hb
        refine ⟨(tc.1 :: tc.2.bytes) ++ bodyc, by rw [hc]; rfl, ?_⟩
        rw [← h]
        simp only [List.length_append]
        omega
      | fail e => rw [hb] at h; cases h
      | panic p => rw [hb] at h; cases h
  | .ptr none, _, out, h => ⟨out, h, le_refl _⟩
  | .ptr (some x), addr, out, h => by
    rw [marshal_ptr] at h ⊢
    exact compact_le x true out h
  | .iface none, _, out, h => ⟨out, h, le_refl _⟩
  | .iface (some x), addr, out, h => by
    simp only [marshal] at h ⊢
    exact compact_le x false out h
  | .bool b, _, out, h => ⟨out, h, le_refl _⟩
  | .int8 i, _, out, h => ⟨out, h, le_refl _⟩
  | .int16 i, _, out, h => ⟨out, h, le_refl _⟩
  | .int32 i, _, out, h => ⟨out, h, le_refl _⟩
  | .int64 i, _, out, h => ⟨out, h, le_refl _⟩
  | .int i, _, out, h => ⟨out, h, le_refl _⟩
  | .uint8 u, _, out, h => ⟨out, h, le_refl _⟩
  | .uint16 u, _, out, h => ⟨out, h, le_refl _⟩
  | .uint32 u, _, out, h => ⟨out, h, le_refl _⟩
  | .uint64 u, _, out, h => ⟨out, h, le_refl _⟩
  | .uint u, _, out, h => ⟨out, h, le_refl _⟩
  | .float32 x, _, out, h => ⟨out, h, le_refl _⟩
  | .float64 x, _, out, h => ⟨out, h, le_refl _⟩
  | .string s, _, out, h => ⟨out, h, le_refl _⟩
  | .other kind, _, out, h => ⟨out, h, le_refl _⟩
/-- The field loop in compact mode writes no more bytes than in verbose mode. -/
theorem compact_le_fields : ∀ (fs : List (Field × Value)) (addr : Bool) (out : List Nat),
    marshalFields fs addr [] false = .ok out →
    ∃ outc, marshalFields fs addr [] true = .ok outc ∧ outc.length ≤ out.length
  | [], _, out, h => ⟨out, h, le_refl _⟩
  | (f, v) :: rest, addr, out, h => by
    rw [marshalFields_cons_ok] at h
    by_cases hs : canSet addr f = true
    · simp only [hs, if_true, Bool.false_eq_true, if_false] at h
      obtain ⟨key, val, tail, hk, hv, ht, rfl⟩ := h
      obtain ⟨valc, hvc, hvle⟩ := compact_le v addr val hv
      obtain ⟨tailc, htc, htle⟩ := compact_le_fields rest addr tail ht
      refine ⟨valc ++ tailc, ?_, ?_⟩
      · rw [marshalFields_cons_ok]
        simp only [hs, if_true]
        exact ⟨[], valc, tailc, rfl, hvc, htc, rfl⟩
      · simp only [List.length_append]
        omega
    · simp only [hs, Bool.false_eq_true, if_false] at h
      obtain ⟨tailc, htc, htle⟩ := compact_le_fields rest addr out h
      refine ⟨tailc, ?_, htle⟩
      rw [marshalFields_cons_ok]
      simp only [hs, Bool.false_eq_true, if_false]
      exact htc
/-- The entry loop in compact mode writes no more bytes than in verbose mode. -/
theorem compact_le_entries : ∀ (es : List (Value × Value)) (out : List Nat),
    marshalEntries es [] false = .ok out →
    ∃ outc, marshalEntries es [] true = .ok outc ∧ outc.length ≤ out.length
  | [], out, h => ⟨out, h, le_refl _⟩
  | (k, v) :: rest, out, h => by
    rw [marshalEntries_cons_ok] at h
    obtain ⟨kb, vb, tail, hk, hv, ht, rfl⟩ := h
    obtain ⟨kc, hkc, hkle⟩ := compact_le k false kb hk
    obtain ⟨vc, hvc, hvle⟩ := compact_le v false vb hv
    obtain ⟨tailc, htc, htle⟩ := compact_le_entries rest tail ht
    refine ⟨kc ++ vc ++ tailc, ?_, ?_⟩
    · rw [marshalEntries_cons_ok]
      exact ⟨kc, vc, tailc, hkc, hvc, htc, rfl⟩
    · simp only [List.length_append]
      omega
/-- The element loop in compact mode writes no more bytes than in verbose mode. -/
theorem compact_le_elems : ∀ (xs : List Value) (out : List Nat),
    marshalElems xs [] false = .ok out →
    ∃ outc, marshalElems xs [] true = .ok outc ∧ outc.length ≤ out.length
  | [], out, h => ⟨out, h, le_refl _⟩
  | v :: rest, out, h => by
    rw [marshalElems_cons_ok] at h
    obtain ⟨vb, tail, hv, ht, rfl⟩ := h
    obtain ⟨vc, hvc, hvle⟩ := compact_le v true vb hv
    obtain ⟨tailc, htc, htle⟩ := compact_le_elems rest tail ht
    refine ⟨vc ++ tailc, ?_, ?_⟩
    · rw [marshalElems_cons_ok]
      exact ⟨vc, tailc, hvc, htc, rfl⟩
    · simp only [List.length_append]
      omega
end

/-- With at least one settable field the field loop writes strictly fewer bytes in compact
mode: the key of that field, at least its tag, is left out. -/
theorem compact_lt_fields (fs : List (Field × Value)) (addr : Bool) (out : List Nat)
    (h : marshalFields fs addr [] false = .ok out)
    (hs : ∃ fv ∈ fs, canSet addr fv.1 = true) :
    ∃ outc, marshalFields fs addr [] true = .ok outc ∧ outc.length < out.length := by
  induction fs generalizing out with
  | nil =>
    obtain ⟨fv, hfv, _⟩ := hs
    cases hfv
  | cons fv rest ih =>
    obtain ⟨f, v⟩ := fv
    rw [marshalFields_cons_ok] at h
    by_cases hc : canSet addr f = true
    · simp only [hc, if_true, Bool.false_eq_true, if_false] at h
      obtain ⟨key, val, tail, hk, hv, ht, rfl⟩ := h
      obtain ⟨valc, hvc, hvle⟩ := compact_le v addr val hv
      obtain ⟨tailc, htc, htle⟩ := compact_le_fields rest addr tail ht
      have hkey := encode_string_length_pos _ _ hk
      refine ⟨valc ++ tailc, ?_, ?_⟩
      · rw [marshalFields_cons_ok]
        simp only [hc, if_true]
        exact ⟨[], valc, tailc, rfl, hvc, htc, rfl⟩
      · simp only [List.length_append]
        omega
    · simp only [hc, Bool.false_eq_true, if_false] at h
      have hs1 : ∃ fv ∈ rest, canSet addr fv.1 = true := by
        obtain ⟨fv, hfv, hset⟩ := hs
        rcases List.mem_cons.mp hfv with rfl | hmem
        · exact absurd hset hc
        · exact ⟨fv, hmem, hset⟩
      obtain ⟨tailc, htc, htlt⟩ := ih out h hs1
      refine ⟨tailc, ?_, htlt⟩
      rw [marshalFields_cons_ok]
      simp only [hc, Bool.false_eq_true, if_false]
      exact htc

/-- Counterexample to C11 as stated: a pointer to the record `{a: true}` with its one
field unexported. The record has a field, `Marshal` succeeds on it, and `MarshalCompact`
returns the same single byte, the header: a field that is not exported is written in
neither mode, so the compact output is not strictly shorter. -/
theorem C11_compact_not_shorter_unexported :
    Marshal (.ptr (some (.struct [(⟨asciiBytes "a", asciiBytes "a", false⟩, .bool true)])))
        = .ok [0x81]
      ∧ MarshalCompact
          (.ptr (some (.struct [(⟨asciiBytes "a", asciiBytes "a", false⟩, .bool true)])))
        = .ok [0x81]
      ∧ (Value.struct [(⟨asciiBytes "a", asciiBytes "a", false⟩, .bool true)]).fields.length
        = 1 := by
  decide

/-- C11, amended: for every record for which encoding succeeds in verbose mode, encoding in
compact mode succeeds too and its output is no longer; and whenever the record has at least
one settable field (which takes an addressable record: passed by pointer, or an element of
a slice), the compact output is strictly shorter. -/
theorem C11_compact_not_longer (fs : List (Field × Value)) (addr : Bool) (out : List Nat)
    (h : marshal (.struct fs) addr [] false = .ok out) :
    ∃ outc, marshal (.struct fs) addr [] true = .ok outc ∧ outc.length ≤ out.length
      ∧ ((∃ fv ∈ fs, canSet addr fv.1 = true) → outc.length < out.length) := by
  rw [marshal_struct_eq] at h ⊢
  cases ht : lengthTag MapFix Map16 Map32 fs.length with
  | none => rw [ht] at h; cases h
  | some tc =>
    rw [ht] at h
    simp only at h ⊢
    cases hb : marshalFields fs addr [] false with
    | ok body =>
      rw [hb] at h
      injection h with h
      obtain ⟨bodyc, hc, hle⟩ := compact_le_fields fs addr body hb
      refine ⟨(tc.1 :: tc.2.bytes) ++ bodyc, by rw [hc]; rfl, ?_, fun hs => ?_⟩
      · rw [← h]
        simp only [List.length_append]
        omega
      · obtain ⟨bodyc1, hc1, hlt⟩ := compact_lt_fields fs addr body hb hs
        rw [hc] at hc1
        injection hc1 with hc1
        subst hc1
        rw [← h]
        simp only [List.length_append]
        omega
    | fail e => rw [hb] at h; cases h
    | panic p => rw [hb] at h; cases h

/-- Witness of C11: the record `{Compact: true, Level: -2, Name: "pack"}`, addressable. -/
theorem C11_compact_not_longer_witness :
    ∃ outc, marshal (.struct (recordValue sampleRecord).fields) true [] true = .ok outc
      ∧ outc.length ≤ [0x83, 0xA7, 0x63, 0x6F, 0x6D, 0x70, 0x61, 0x63, 0x74, 0xC3,
          0xA5, 0x6C, 0x65, 0x76, 0x65, 0x6C, 0xD1, 0xFF, 0xFE,
          0xA4, 0x6E, 0x61, 0x6D, 0x65, 0xA4, 0x70, 0x61, 0x63, 0x6B].length
      ∧ ((∃ fv ∈ (recordValue sampleRecord).fields, canSet true fv.1 = true) →
          outc.length < [0x83, 0xA7, 0x63, 0x6F, 0x6D, 0x70, 0x61, 0x63, 0x74, 0xC3,
            0xA5, 0x6C, 0x65, 0x76, 0x65, 0x6C, 0xD1, 0xFF, 0xFE,
            0xA4, 0x6E, 0x61, 0x6D, 0x65, 0xA4, 0x70, 0x61, 0x63, 0x6B].length) :=
  C11_compact_not_longer (recordValue sampleRecord).fields true _ (by decide)

end Pack
